import Mathlib

/-!
A verification development for the BrainGraph library
(`src/code/src/Graph.cxx`).

The source file provides four operations on an in-memory graph whose nodes
carry named numeric property vectors:

* `Graph::calculate_node_importance` — a path-based scorer,
* `Graph::as_matrix` — a dense 3-D projection of a scalar property,
* `Graph::save_binary` / `Graph::load_binary` — a binary codec with a textual
  header (`parse_header`) and a packed data region (`parse_data`).

The embedding below translates these functions.  The numeric element type
(`property_type`, a C++ `double`) and the edge weight type (`weight_type`)
are modelled as `ℝ`; the id type (`id_type`) as `ℕ`.  The class declarations
(Graph.h) and the string utilities (StringFunctions.h) are not part of the
sources; definitions taken from the specification instead of the source are
marked `Modelled from the spec:` in their doc comments.
-/

namespace BrainGraph

/-- Property names are C++ `std::string` values, modelled as lists of
characters (the header parser below works character by character, so `String`
is unfolded to its character list throughout). -/
abbrev Name := List Char

/-- Modelled from the spec: `Property` (declared in Graph.h, which is not in
src/) is a fixed-length vector of numeric elements; the element type
(`property_type`, a C++ `double`) is modelled as `ℝ`.  A property built from a
single value has dim 1; one built from a sequence keeps its length and order. -/
structure Property where
  values : List ℝ

/-- `Property::dim()`: the fixed arity. -/
def Property.dim (p : Property) : ℕ := p.values.length

/-- Element access `p[i]`.  C++ signals out-of-range access as an error (spec
§4.1); the embedding totalises it with 0.  The claims below only exercise
in-range accesses. -/
def Property.get (p : Property) (i : ℕ) : ℝ := p.values.getD i 0

/-- Modelled from the spec: node properties live in a
`std::map<std::string, Property>`, an ordered map with pairwise distinct keys.
The map is modelled as an association list; every `std::map` state is such a
list (sorted by key, keys distinct), and the embedding generalises to any
stable order.  `mapSet m k v` is the assignment `m[k] = v`: it updates the
entry in place when `k` is present and inserts one otherwise. -/
def mapSet {α : Type} : List (Name × α) → Name → α → List (Name × α)
  | [], k, v => [(k, v)]
  | (k0, v0) :: rest, k, v =>
    if k0 = k then (k0, v) :: rest else (k0, v0) :: mapSet rest k v

/-- The read `m[k]` with a default for an absent key (C++ `operator[]` would
insert a default-constructed value and return a reference to it; `mapTouch`
below models the insertion side effect separately). -/
def mapGetD {α : Type} : List (Name × α) → Name → α → α
  | [], _, d => d
  | (k0, v0) :: rest, k, d => if k0 = k then v0 else mapGetD rest k d

/-- `std::map::find`-style lookup. -/
def mapFind {α : Type} : List (Name × α) → Name → Option α
  | [], _ => none
  | (k0, v0) :: rest, k => if k0 = k then some v0 else mapFind rest k

/-- The insertion side effect of `std::map::operator[]`: an absent key is
inserted with a default-constructed (empty) `Property`. -/
def mapTouch (m : List (Name × Property)) (k : Name) : List (Name × Property) :=
  match mapFind m k with
  | some _ => m
  | none => m ++ [(k, ⟨[]⟩)]

/-- Modelled from the spec: a `Node` is an id (`id_type`, modelled as `ℕ`)
plus the property mapping. -/
structure Node where
  id : ℕ
  properties : List (Name × Property)

/-- Modelled from the spec: an `Edge` stores the target node id (field `node`
in the source's usage `edge.node`) and a scalar weight. -/
structure Edge where
  node : ℕ
  weight : ℝ

/-- Modelled from the spec: a `Graph` is an ordered list of nodes and, per
node index, an ordered list of outgoing edges. -/
structure Graph where
  nodes_ : List Node
  edges_ : List (List Edge)

/-- `Graph::no_of_nodes()`. -/
def Graph.no_of_nodes (g : Graph) : ℕ := g.nodes_.length

/-- `Graph::node(i)`.  C++ fails on an out-of-range index; totalised with a
default node.  The claims below only exercise in-range indices. -/
def Graph.node (g : Graph) (i : ℕ) : Node := g.nodes_.getD i ⟨0, []⟩

/-- `Graph::edges(i)`: the outgoing edge list of node `i`. -/
def Graph.edges (g : Graph) (i : ℕ) : List Edge := g.edges_.getD i []

/-!  The node-importance scorer (`Graph::calculate_node_importance`). -/

/-- Modelled from the spec: one entry of an inter-ROI path — a node id and a
cumulative weight (the source accesses `d_node.id` and `d_node.weight`). -/
structure DecoratedNode where
  id : ℕ
  weight : ℝ

instance : Inhabited DecoratedNode := ⟨⟨0, 0⟩⟩

/-- Modelled from the spec: the scorer's input, a collection of paths. -/
abbrev ROItoROI := List (List DecoratedNode)

/-- In-place mutation of node `j` (`auto& node = this->node(j)`), totalised:
for `j` out of range (where C++ `node(j)` fails) the graph is unchanged. -/
def Graph.modifyNode (g : Graph) (j : ℕ) (fn : Node → Node) : Graph :=
  { g with nodes_ := g.nodes_.set j (fn (g.nodes_.getD j ⟨0, []⟩)) }

/-- `node.properties[k][0] += δ`: element 0 of the property named `k` is
incremented.  (`List.set` leaves a dim-0 property unchanged, where C++ would
signal an out-of-range element access; unexercised by the claims.) -/
def Node.bumpProp (n : Node) (k : Name) (δ : ℝ) : Node :=
  let p := mapGetD n.properties k ⟨[]⟩
  { n with properties := mapSet n.properties k ⟨p.values.set 0 (p.values.getD 0 0 + δ)⟩ }

def Graph.bumpAt (g : Graph) (j : ℕ) (k : Name) (δ : ℝ) : Graph :=
  g.modifyNode j fun n => n.bumpProp k δ

/-- The insertion side effect of reading `node(j).properties[k]` through
`std::map::operator[]`. -/
def Graph.touchProp (g : Graph) (j : ℕ) (k : Name) : Graph :=
  g.modifyNode j fun n => { n with properties := mapTouch n.properties k }

/-- The scorer's reset pass: for every node, `properties[count] = Property(0)`
then `properties[confidence] = Property(0)` — both become dim-1 scalars
holding 0. -/
def prePass (g : Graph) (count confidence : Name) : Graph :=
  { g with nodes_ := g.nodes_.map fun n =>
      { n with properties := mapSet (mapSet n.properties count ⟨[0]⟩) confidence ⟨[0]⟩ } }

/-- One iteration of the scorer's path loop.  `length = path.size() - 1.` as a
real; for `length > 0` the prior of both endpoints is read (the reads go
through `operator[]`, whose insertion side effect is `touchProp`), the score
`exp(-(distance/length))` is computed once, and every entry of the path gets
`count[0] += 1; confidence[0] += score`. -/
noncomputable def scoreStep (prior count confidence : Name) (g : Graph)
    (path : List DecoratedNode) : Graph :=
  let length : ℝ := (path.length : ℝ) - 1
  if 0 < length then
    let g1 := g.touchProp path.headI.id prior
    let node_0_weight :=
      Real.log (Real.sqrt ((mapGetD (g1.node path.headI.id).properties prior ⟨[]⟩).get 0))
    let g2 := g1.touchProp (path.getLastD default).id prior
    let node_n_weight :=
      Real.log (Real.sqrt ((mapGetD (g2.node (path.getLastD default).id).properties prior ⟨[]⟩).get 0))
    let distance := (path.getLastD default).weight - node_0_weight - node_n_weight
    let score := Real.exp (-(distance / length))
    path.foldl (fun acc e => (acc.bumpAt e.id count 1).bumpAt e.id confidence score) g2
  else g

/-- `Graph::calculate_node_importance(r2r, prior, count, confidence)`: reset
every node's count and confidence, then process each path in order.  (The
source also tallies `num_of_paths`, which is dead code with no effect on the
result.) -/
noncomputable def Graph.calculate_node_importance (g : Graph) (r2r : ROItoROI)
    (prior count confidence : Name) : Graph :=
  r2r.foldl (scoreStep prior count confidence) (prePass g count confidence)

/-!  The dense matrix projection (`Graph::as_matrix`). -/

/-- `Graph::as_matrix(rows, columns, slices, weight_key, pos_key)`: a vector
of `rows*columns*slices` zeros; for each node `i` in order, the value
`properties.at(weight_key)[0]` is written at flat index
`pos[2] + pos[1]*slices + pos[0]*columns*slices`.  The C++ error paths are
modelled as `Except.error`: a missing key (`map::at`), a position of dim < 3
or a dim-0 weight (`Property` element access), and a flat index outside the
vector (`vector::at`).  The index expression is computed in `double` and
converted to `size_t` (truncation); on the spec's domain (non-negative
integer coordinates) this is `Nat.floor`. -/
noncomputable def asMatrixStep (g : Graph) (columns slices : ℕ)
    (weight_key pos_key : Name) (weights : List ℝ) (i : ℕ) : Except String (List ℝ) :=
  match mapFind (g.node i).properties pos_key with
  | none => Except.error ("map::at: key not found")
  | some pos =>
    if pos.dim < 3 then Except.error ("Property: index out of range")
    else
      match mapFind (g.node i).properties weight_key with
      | none => Except.error ("map::at: key not found")
      | some wp =>
        if wp.dim = 0 then Except.error ("Property: index out of range")
        else
          let idx := ⌊pos.get 2 + pos.get 1 * (slices : ℝ) + pos.get 0 * (columns : ℝ) * (slices : ℝ)⌋₊
          if idx < weights.length then Except.ok (weights.set idx (wp.get 0))
          else Except.error ("vector::at: index out of range")

noncomputable def Graph.as_matrix (g : Graph) (rows columns slices : ℕ)
    (weight_key pos_key : Name) : Except String (List ℝ) :=
  (List.range g.no_of_nodes).foldlM (asMatrixStep g columns slices weight_key pos_key)
    (List.replicate (rows * columns * slices) (0 : ℝ))

/-!  The binary codec: decimal rendering and parsing, string utilities. -/

/-- Structural-recursion worker for decimal rendering (the fuel argument is
only there to make the division recursion structural; `fuel ≥ n` renders `n`
exactly). -/
def decAux : ℕ → ℕ → List Char
  | _, 0 => []
  | 0, _ + 1 => []
  | fuel + 1, n + 1 => decAux fuel ((n + 1) / 10) ++ [Nat.digitChar ((n + 1) % 10)]

/-- Decimal rendering of a natural number, as `operator<<` produces it. -/
def decimalChars (n : ℕ) : List Char :=
  if n = 0 then ['0'] else decAux n n

/-- The numeric value of a decimal digit character. -/
def charVal (c : Char) : ℕ := c.toNat - 48

/-- Decimal digit test ('0' ≤ c ≤ '9'). -/
def isDig (c : Char) : Bool := 48 ≤ c.toNat && c.toNat ≤ 57

/-- The value of a big-endian digit string. -/
def parseDigits (s : List Char) : ℕ := s.foldl (fun a c => a * 10 + charVal c) 0

/-- `std::stoul` on an already-trimmed string: parse a nonempty leading digit
run, failing with `invalid_argument` otherwise.  (C++ would additionally skip
leading whitespace and wrap a leading minus sign through unsigned arithmetic;
neither is exercised: every call site trims first and the claims feed
non-negative fields.) -/
def stoulChars (s : List Char) : Except String ℕ :=
  let ds := s.takeWhile isDig
  if ds.isEmpty then Except.error ("stoul: invalid argument") else Except.ok (parseDigits ds)

/-- Modelled from the spec: `StringFunctions::split` (StringFunctions.h is not
in src/) — split on every occurrence of the delimiter; `n` delimiters yield
`n+1` (possibly empty) parts. -/
def splitChar : List Char → Char → List (List Char)
  | [], _ => [[]]
  | c :: rest, d =>
    if c = d then [] :: splitChar rest d
    else (c :: (splitChar rest d).headI) :: (splitChar rest d).tail

/-- Modelled from the spec: `StringFunctions::trim` — strip every character of
`cut` from both ends. -/
def trimChars (s : List Char) (cut : List Char) : List Char :=
  ((s.dropWhile (fun c => decide (c ∈ cut))).reverse.dropWhile (fun c => decide (c ∈ cut))).reverse

/-- The default whitespace set of the one-argument `trim`. -/
def wsCut : List Char := [' ', '\t']

/-!  The header (`struct Header`, `parse_header`). -/

/-- The `Header` aggregate filled in by `parse_header`. -/
structure Header where
  node_count : ℕ
  edge_count : ℕ
  node_id_bytes : ℕ
  property_element_bytes : ℕ
  total_property_elements : ℕ
  edge_weight_bytes : ℕ
  properties : List (Name × ℕ)
deriving DecidableEq, Repr

/-- The C++ `Header header;` is default-constructed with indeterminate scalar
fields (reading one before assignment is undefined); the model fixes them
to 0 as one arbitrary resolution.  The five entry fields are always
overwritten from the `# Header` section, and `total_property_elements` is
overwritten by a `# Properties` section — but for a file WITHOUT such a
section the C++ field stays indeterminate and `parse_data` reads it anyway
(`property_bytes`, `property_values(total_property_elements)`), so on that
domain the program's behaviour is undefined and the model's 0 is a choice,
not the code.  No round-trip theorem below relies on it: the round trip is
stated only for graphs whose saved file carries a `# Properties` section,
where the parser assigns the field. -/
def emptyHeader : Header := ⟨0, 0, 0, 0, 0, 0, []⟩

/-- One of the five `key = value` lines under `# Header`: split on '=', trim
both sides, `stoul` the value.  `mapping[1]` on a line with no '=' is an
out-of-bounds `std::vector` access — undefined behaviour in C++, modelled as
an error. -/
def readEntry (line : List Char) : Except String (Name × ℕ) :=
  let mapping := splitChar line '='
  match mapping.get? 1 with
  | none => Except.error ("vector index out of range")
  | some m1 =>
    match stoulChars (trimChars m1 wsCut) with
    | Except.error e => Except.error e
    | Except.ok v => Except.ok (trimChars mapping.headI wsCut, v)

/-- The `for (int i = 0; i < 5; ++i)` loop under `# Header`: read five lines
(a failed `getline` at EOF yields the empty line) into the `header_entries`
map. -/
def readEntries : ℕ → List (List Char) → List (Name × ℕ) →
    Except String (List (Name × ℕ) × List (List Char))
  | 0, lines, acc => Except.ok (acc, lines)
  | k + 1, lines, acc =>
    match readEntry (lines.headD []) with
    | Except.error e => Except.error e
    | Except.ok kv => readEntries k lines.tail (mapSet acc kv.1 kv.2)

/-- Transfer the `header_entries` map into the header fields; a missing key
reads as 0 (`std::map::operator[]` inserts a zero value). -/
def applyEntries (h : Header) (entries : List (Name × ℕ)) : Header :=
  { h with
    node_count := mapGetD entries ("node_count".toList) 0
    edge_count := mapGetD entries ("edge_count".toList) 0
    node_id_bytes := mapGetD entries ("node_id_bytes".toList) 0
    property_element_bytes := mapGetD entries ("property_element_bytes".toList) 0
    edge_weight_bytes := mapGetD entries ("edge_weight_bytes".toList) 0 }

/-- `find_first_of`. -/
def firstIdxOf (s : List Char) (c : Char) : Option ℕ := s.findIdx? (fun x => x = c)

/-- `find_last_of`. -/
def lastIdxOf (s : List Char) (c : Char) : Option ℕ :=
  match s.reverse.findIdx? (fun x => x = c) with
  | none => none
  | some j => some (s.length - 1 - j)

/-- The `substr(find_first_of('(')+1, find_last_of(')') - start)` slice of the
properties line.  C++ arithmetic is on `size_t`: with no '(' the start wraps
to 0 (`npos + 1`), and with no ')' the count is huge, taking the rest of the
string — both reproduced here.  (A ')' strictly before the first '(' would
also wrap the count to huge in C++; the model truncates to the empty slice
instead — no claim and no writer-produced line has that shape.) -/
def extractInterior (line : List Char) : List Char :=
  let start := match firstIdxOf line '(' with
    | some j => j + 1
    | none => 0
  let stop := match lastIdxOf line ')' with
    | some j => j
    | none => line.length
  (line.drop start).take (stop - start)

/-- One `(name:dim)` token: split on ':', `stoul(trim(kv[1], " )"))`,
`trim(kv[0], " (")`.  As in `readEntry`, `kv[1]` on a token with no ':' is an
out-of-bounds vector access (C++ UB), modelled as an error. -/
def parsePropToken (tok : List Char) : Except String (Name × ℕ) :=
  let kv := splitChar tok ':'
  match kv.get? 1 with
  | none => Except.error ("vector index out of range")
  | some kv1 =>
    match stoulChars (trimChars kv1 [' ', ')']) with
    | Except.error e => Except.error e
    | Except.ok d => Except.ok (trimChars kv.headI [' ', '('], d)

/-- The `# Properties` branch: slice the parenthesised interior, split on ',',
parse each token, append the pairs to `header.properties` and overwrite
`total_property_elements` with this section's sum. -/
def parsePropsLine (h : Header) (line : List Char) : Except String Header :=
  let toks := splitChar (extractInterior line) ','
  match toks.mapM parsePropToken with
  | Except.error e => Except.error e
  | Except.ok pairs =>
    Except.ok { h with
      properties := h.properties ++ pairs
      total_property_elements := (pairs.map (fun p => p.2)).sum }

/-- The `while (file.good() && line != "# Data")` loop of `parse_header`,
driven by the list of remaining lines.  A failed `getline` at EOF clears
`good()`, so the loop exits when the lines run out; the fuel argument only
makes the recursion structural (each iteration consumes at least one line, so
`fuel = lines.length + 1` never runs out). -/
def parseHeaderLoop : ℕ → Header → List (List Char) → Except String Header
  | 0, h, _ => Except.ok h
  | _ + 1, h, [] => Except.ok h
  | fuel + 1, h, line :: rest =>
    if line = ("# Data".toList) then Except.ok h
    else if line = ("# Header".toList) then
      match readEntries 5 rest [] with
      | Except.error e => Except.error e
      | Except.ok er => parseHeaderLoop fuel (applyEntries h er.1) er.2
    else if line = ("# Properties".toList) then
      match parsePropsLine h (rest.headD []) with
      | Except.error e => Except.error e
      | Except.ok h2 => parseHeaderLoop fuel h2 rest.tail
    else parseHeaderLoop fuel h rest

/-- `parse_header`: run the loop on the file's lines.  The C++ exceptions
(`std::stoul` on a malformed number; out-of-bounds vector accesses) surface as
`Except.error`. -/
def parse_header (lines : List (List Char)) : Except String Header :=
  parseHeaderLoop (lines.length + 1) emptyHeader lines

/-!  The data region (`parse_data`) and the files themselves.

The packed payload interleaves 8-byte ids, 8-byte property elements and
8-byte weights; the embedding models it as a list of typed machine words.
Reading a word with the wrong type corresponds to reinterpreting raw bytes in
C++ and yields an unspecified value, modelled as 0; the claims never misalign
a read.  Reading past the end of the payload corresponds to a failed
`stream.read` that leaves the destination buffer untouched (indeterminate in
C++), also modelled as 0. -/

inductive MWord
  | nat (n : ℕ)
  | real (x : ℝ)

def wordNat : MWord → ℕ
  | MWord.nat n => n
  | MWord.real _ => 0

def wordReal : MWord → ℝ
  | MWord.real x => x
  | MWord.nat _ => 0

/-- A saved file: the textual header region (one entry per line, including the
terminating `# Data` line) and the packed payload. -/
structure BinFile where
  lines : List (List Char)
  words : List MWord

/-- Slice one node's element buffer into properties following the header's
schema: `properties[name] = Property(vector(start, end))` in schema order. -/
def buildProps : List (Name × ℕ) → List ℝ → List (Name × Property) → List (Name × Property)
  | [], _, m => m
  | nd :: rest, vals, m => buildProps rest (vals.drop nd.2) (mapSet m nd.1 ⟨vals.take nd.2⟩)

/-- The node loop of `parse_data`: for each of `node_count` nodes, read one id
word — which is then DISCARDED, the node being constructed from the loop
index `i` (`nodes.push_back(Node(i, properties))`) — then
`total_property_elements` element words, sliced by the schema. -/
def readNodes (schema : List (Name × ℕ)) (total : ℕ) :
    ℕ → ℕ → List MWord → List Node × List MWord
  | 0, _, ws => ([], ws)
  | k + 1, i, ws =>
    let vals := ((ws.drop 1).take total).map wordReal
    let next := readNodes schema total k (i + 1) (ws.drop (1 + total))
    (⟨i, buildProps schema vals []⟩ :: next.1, next.2)

/-- `edges[e_info.source].push_back(Edge(target, weight))`.  A source index
outside the vector is C++ UB (`vector::operator[]`), modelled as a no-op. -/
def pushEdge (es : List (List Edge)) (src : ℕ) (e : Edge) : List (List Edge) :=
  es.set src (es.getD src [] ++ [e])

/-- The edge loop of `parse_data`: `edge_count` packed records of
(source, target, weight). -/
def readEdges : ℕ → List MWord → List (List Edge) → List (List Edge)
  | 0, _, es => es
  | k + 1, ws, es =>
    readEdges k (ws.drop 3)
      (pushEdge es (wordNat (ws.headD (MWord.nat 0)))
        ⟨wordNat ((ws.drop 1).headD (MWord.nat 0)), wordReal ((ws.drop 2).headD (MWord.real 0))⟩)

/-- `parse_data(stream, header)`: nodes first, then edge records distributed
into per-source lists. -/
def parse_data (words : List MWord) (h : Header) : List Node × List (List Edge) :=
  let nr := readNodes h.properties h.total_property_elements h.node_count 0 words
  (nr.1, readEdges h.edge_count nr.2 (List.replicate h.node_count []))

/-!  `load_binary`. -/

/-- Modelled from the spec: Graph.h is not in src/; per spec §9 the id,
property element and weight types are 64-bit (`sizeof == 8`). -/
def sizeof_id_type : ℕ := 8

/-- Modelled from the spec: see `sizeof_id_type`. -/
def sizeof_property_type : ℕ := 8

/-- Modelled from the spec: see `sizeof_id_type`. -/
def sizeof_weight_type : ℕ := 8

def errIdSize : String := "Size of node id type is not equal to size of id_type"

def errPropSize : String := "Size of property element type is not equal to size of property_type"

def errWeightSize : String := "Size of edge weight type is not equal to size of weight_type"

/-- `Graph::load_binary`: parse the header, validate the three declared
widths (id and element widths must match exactly, the weight width must not
exceed the native one), then parse the data region and build the graph.
Opening the file is outside the embedding (a `BinFile` is an opened file). -/
def load_binary (f : BinFile) : Except String Graph :=
  match parse_header f.lines with
  | Except.error e => Except.error e
  | Except.ok header =>
    if header.node_id_bytes ≠ sizeof_id_type then Except.error errIdSize
    else if header.property_element_bytes ≠ sizeof_property_type then Except.error errPropSize
    else if sizeof_weight_type < header.edge_weight_bytes then Except.error errWeightSize
    else
      let ne := parse_data f.words header
      Except.ok ⟨ne.1, ne.2⟩

/-!  `save_binary`. -/

/-- The property schema line content is taken from node 0. -/
def schemaOf (g : Graph) : List (Name × ℕ) :=
  (g.node 0).properties.map (fun p => (p.1, p.2.dim))

/-- One `(name:dim)` chunk of the properties line. -/
def chunkOf (p : Name × ℕ) : List Char :=
  '(' :: p.1 ++ ':' :: decimalChars p.2 ++ [')']

/-- The comma-joined chunk list (the writer emits a ',' after every chunk but
the last). -/
def joinChunks : List (Name × ℕ) → List Char
  | [] => []
  | s0 :: rest => chunkOf s0 ++ rest.flatMap (fun s => ',' :: chunkOf s)

/-- The `properties = (n1:d1),(n2:d2),...` line. -/
def propsLineOf (g : Graph) : List Char :=
  ("properties = ".toList) ++ joinChunks (schemaOf g)

/-- The reservation width of the edge-count field:
`ceil(8*sizeof(id_type)/log2(10)) = ceil(64/log2 10) = 20` characters
(enough for any 64-bit decimal; proved below as `reserveWidth_eq_ceil`). -/
def reserveWidth : ℕ := 20

/-- The packed edge records, in the order the writer emits them: for each
node `i` in order, `{source = i, target, weight}` per outgoing edge. -/
structure EdgeInfo where
  source : ℕ
  target : ℕ
  weight : ℝ

def edgeRecordsOf (g : Graph) : List EdgeInfo :=
  (List.range g.no_of_nodes).flatMap (fun i =>
    (g.edges i).map (fun e => ⟨i, e.node, e.weight⟩))

/-- The `edge_count` tally: incremented once per record written. -/
def edgeTally (g : Graph) : ℕ := (edgeRecordsOf g).length

/-- The `edge_count = ` line as it stands after the final `seekp` back-patch:
the writer first reserves `reserveWidth` spaces, then overwrites the start of
the field with the decimal tally, leaving the remaining spaces.  (For a tally
of ≥ 10^20 digits the C++ write would spill past the reserved field; a
`size_t` tally is < 2^64 < 10^20, so the spill is unreachable.) -/
def edgeCountLineOf (g : Graph) : List Char :=
  ("edge_count = ".toList) ++ decimalChars (edgeTally g) ++
    List.replicate (reserveWidth - (decimalChars (edgeTally g)).length) ' '

/-- The node region of the payload: for each node in order, its id then its
property elements in map order. -/
def nodeWordsOf (g : Graph) : List MWord :=
  (List.range g.no_of_nodes).flatMap (fun i =>
    MWord.nat (g.node i).id ::
      (g.node i).properties.flatMap (fun p => p.2.values.map MWord.real))

/-- The edge region of the payload. -/
def edgeWordsOf (g : Graph) : List MWord :=
  (edgeRecordsOf g).flatMap (fun r =>
    [MWord.nat r.source, MWord.nat r.target, MWord.real r.weight])

/-- `Graph::save_binary`: the header lines (with the back-patched edge count),
the optional properties schema line (emitted when the graph is non-empty and
node 0 has at least one property), the `# Data` sentinel, then the packed
payload.  Opening the output file and the stream-state return value are
outside the embedding. -/
def save_binary (g : Graph) : BinFile :=
  ⟨[("# Header".toList),
    ("node_count = ".toList) ++ decimalChars g.no_of_nodes,
    edgeCountLineOf g,
    ("node_id_bytes = ".toList) ++ decimalChars sizeof_id_type,
    ("property_element_bytes = ".toList) ++ decimalChars sizeof_property_type,
    ("edge_weight_bytes = ".toList) ++ decimalChars sizeof_weight_type] ++
   (if 0 < g.no_of_nodes ∧ 0 < (g.node 0).properties.length then
      [("# Properties".toList), propsLineOf g] else []) ++
   [("# Data".toList)],
   nodeWordsOf g ++ edgeWordsOf g⟩

/-- The well-formedness hypotheses of the spec's invariants.
I1: node ids equal indices. -/
def InvI1 (g : Graph) : Prop :=
  ∀ i < g.no_of_nodes, (g.node i).id = i

/-- I2: every node carries the same property names with the same dims in the
same order as node 0, and (a `std::map` representation invariant) the keys
are pairwise distinct. -/
def InvI2 (g : Graph) : Prop :=
  (∀ i < g.no_of_nodes,
    (g.node i).properties.map (fun p => (p.1, p.2.dim)) = schemaOf g) ∧
  ((schemaOf g).map (fun p => p.1)).Nodup

/-- I3: every edge target is a valid node index. -/
def InvI3 (g : Graph) : Prop :=
  ∀ i < g.no_of_nodes, ∀ e ∈ g.edges i, e.node < g.no_of_nodes

/-- A property name the codec round-trips: no ',' or ':' (they would break the
schema-line tokenisation), no newline (it would break the line structure,
which the embedding models as a list of lines), and no leading or trailing
character that `trim(kv[0], " (")` strips. -/
def validPropName (n : Name) : Bool :=
  n.all (fun c => c ≠ ',' && c ≠ ':' && c ≠ '\n') &&
    (match n with
     | [] => true
     | c :: _ => c ≠ ' ' && c ≠ '(') &&
    (match n.getLast? with
     | none => true
     | some c => c ≠ ' ' && c ≠ '(')

end BrainGraph

/-!  Helper lemmas: lists, association maps, graph accessors. -/

namespace BrainGraph

theorem getD_ge_length {α : Type _} (l : List α) (i : ℕ) (d : α) (h : l.length ≤ i) :
    l.getD i d = d := by
  induction l generalizing i with
  | nil => simp [List.getD]
  | cons x xs ih =>
    cases i with
    | zero => simp at h
    | succ j => simpa [List.getD] using ih j (by simpa using h)

theorem getD_set_self {α : Type _} (l : List α) (j : ℕ) (a d : α) (h : j < l.length) :
    (l.set j a).getD j d = a := by
  induction l generalizing j with
  | nil => simp at h
  | cons x xs ih =>
    cases j with
    | zero => rfl
    | succ i => simpa [List.getD] using ih i (by simpa using h)

theorem getD_set_ne {α : Type _} (l : List α) (i j : ℕ) (a d : α) (h : i ≠ j) :
    (l.set j a).getD i d = l.getD i d := by
  induction l generalizing i j with
  | nil => simp
  | cons x xs ih =>
    cases j with
    | zero => cases i with
      | zero => exact absurd rfl h
      | succ i' => simp [List.getD]
    | succ j' => cases i with
      | zero => simp [List.getD]
      | succ i' => simpa [List.getD] using ih i' j' (fun hh => h (by simp [hh]))

theorem set_oob {α : Type _} (l : List α) (j : ℕ) (a : α) (h : l.length ≤ j) :
    l.set j a = l := by
  induction l generalizing j with
  | nil => simp
  | cons x xs ih =>
    cases j with
    | zero => simp at h
    | succ j' => simpa using ih j' (by simpa using h)

theorem getD_map {α β : Type _} (f : α → β) (l : List α) (i : ℕ) (d : α) (h : i < l.length) :
    (l.map f).getD i (f d) = f (l.getD i d) := by
  induction l generalizing i with
  | nil => simp at h
  | cons x xs ih =>
    cases i with
    | zero => rfl
    | succ j => simpa [List.getD] using ih j (by simpa using h)

theorem mapGetD_set_eq {α : Type} (m : List (Name × α)) (k : Name) (v d : α) :
    mapGetD (mapSet m k v) k d = v := by
  induction m with
  | nil => simp [mapSet, mapGetD]
  | cons p rest ih =>
    by_cases h : p.1 = k
    · simp [mapSet, mapGetD, h]
    · simp [mapSet, mapGetD, h, ih]

theorem mapGetD_set_ne {α : Type} (m : List (Name × α)) (k k' : Name) (v d : α)
    (h : k' ≠ k) : mapGetD (mapSet m k v) k' d = mapGetD m k' d := by
  have h' : k ≠ k' := Ne.symm h
  induction m with
  | nil => simp [mapSet, mapGetD, h']
  | cons p rest ih =>
    by_cases hp : p.1 = k
    · subst hp
      simp [mapSet, mapGetD, h']
    · simp [mapSet, mapGetD, hp, ih]

theorem mapFind_set_eq {α : Type} (m : List (Name × α)) (k : Name) (v : α) :
    mapFind (mapSet m k v) k = some v := by
  induction m with
  | nil => simp [mapSet, mapFind]
  | cons p rest ih =>
    by_cases h : p.1 = k
    · simp [mapSet, mapFind, h]
    · simp [mapSet, mapFind, h, ih]

theorem mapFind_set_ne {α : Type} (m : List (Name × α)) (k k' : Name) (v : α)
    (h : k' ≠ k) : mapFind (mapSet m k v) k' = mapFind m k' := by
  have h' : k ≠ k' := Ne.symm h
  induction m with
  | nil => simp [mapSet, mapFind, h']
  | cons p rest ih =>
    by_cases hp : p.1 = k
    · subst hp
      simp [mapSet, mapFind, h']
    · simp [mapSet, mapFind, hp, ih]

theorem mapGetD_append_absent (m m2 : List (Name × Property)) (k : Name) (d : Property)
    (h : mapFind m k = none) : mapGetD (m ++ m2) k d = mapGetD m2 k d := by
  induction m with
  | nil => simp
  | cons p rest ih =>
    by_cases hp : p.1 = k
    · simp [mapFind, hp] at h
    · simp [mapFind, hp] at h
      simpa [mapGetD, hp] using ih h

theorem mapGetD_append_present (m m2 : List (Name × Property)) (k : Name) (d : Property) (v : Property)
    (h : mapFind m k = some v) : mapGetD (m ++ m2) k d = v := by
  induction m with
  | nil => simp [mapFind] at h
  | cons p rest ih =>
    by_cases hp : p.1 = k
    · simp [mapFind, hp] at h
      simp [mapGetD, hp, h]
    · simp [mapFind, hp] at h
      simpa [mapGetD, hp] using ih h

theorem mapGetD_eq_of_find (m : List (Name × Property)) (k : Name) (v d : Property)
    (h : mapFind m k = some v) : mapGetD m k d = v := by
  induction m with
  | nil => simp [mapFind] at h
  | cons p rest ih =>
    by_cases hp : p.1 = k
    · simp [mapFind, hp] at h
      simp [mapGetD, hp, h]
    · simp [mapFind, hp] at h
      simpa [mapGetD, hp] using ih h

theorem mapGetD_eq_default_of_find_none (m : List (Name × Property)) (k : Name) (d : Property)
    (h : mapFind m k = none) : mapGetD m k d = d := by
  induction m with
  | nil => simp [mapGetD]
  | cons p rest ih =>
    by_cases hp : p.1 = k
    · simp [mapFind, hp] at h
    · simp [mapFind, hp] at h
      simpa [mapGetD, hp] using ih h

theorem mapTouch_present (m : List (Name × Property)) (k : Name)
    (h : (mapFind m k).isSome) : mapTouch m k = m := by
  unfold mapTouch
  cases hf : mapFind m k with
  | some v => rfl
  | none => rw [hf] at h; simp at h

theorem mapGetD_touch (m : List (Name × Property)) (k k' : Name) :
    mapGetD (mapTouch m k) k' ⟨[]⟩ = mapGetD m k' ⟨[]⟩ := by
  unfold mapTouch
  cases hf : mapFind m k with
  | some v => rfl
  | none =>
    by_cases hk : k' = k
    · subst hk
      rw [mapGetD_append_absent _ _ _ _ hf, mapGetD_eq_default_of_find_none _ _ _ hf]
      simp [mapGetD]
    · rcases hv : mapFind m k' with _ | v
      · rw [mapGetD_append_absent _ _ _ _ hv, mapGetD_eq_default_of_find_none _ _ _ hv]
        simp [mapGetD, hk]
      · rw [mapGetD_append_present _ _ _ _ _ hv, mapGetD_eq_of_find _ _ _ _ hv]

theorem mapFind_touch_ne (m : List (Name × Property)) (k k' : Name) (h : k' ≠ k) :
    mapFind (mapTouch m k) k' = mapFind m k' := by
  unfold mapTouch
  cases hf : mapFind m k with
  | some v => rfl
  | none =>
    have h' : k ≠ k' := Ne.symm h
    induction m with
    | nil => simp [mapFind, h']
    | cons p rest ih =>
      by_cases hp : p.1 = k
      · simp [mapFind, hp] at hf
      · simp [mapFind, hp] at hf
        by_cases hp' : p.1 = k'
        · simp [mapFind, hp']
        · simpa [mapFind, hp'] using ih hf

/-!  Graph-level accessor lemmas. -/

theorem no_of_nodes_modifyNode (g : Graph) (j : ℕ) (fn : Node → Node) :
    (g.modifyNode j fn).no_of_nodes = g.no_of_nodes := by
  simp [Graph.modifyNode, Graph.no_of_nodes]

theorem edges_modifyNode (g : Graph) (j : ℕ) (fn : Node → Node) (i : ℕ) :
    (g.modifyNode j fn).edges i = g.edges i := rfl

theorem node_modifyNode_self (g : Graph) (j : ℕ) (fn : Node → Node)
    (h : j < g.no_of_nodes) : (g.modifyNode j fn).node j = fn (g.node j) := by
  simp only [Graph.modifyNode, Graph.node]
  exact getD_set_self _ _ _ _ h

theorem node_modifyNode_ne (g : Graph) (i j : ℕ) (fn : Node → Node) (h : i ≠ j) :
    (g.modifyNode j fn).node i = g.node i := by
  simp only [Graph.modifyNode, Graph.node]
  exact getD_set_ne _ _ _ _ _ h

theorem modifyNode_oob (g : Graph) (j : ℕ) (fn : Node → Node)
    (h : g.no_of_nodes ≤ j) : g.modifyNode j fn = g := by
  cases g with
  | mk ns es => simp [Graph.modifyNode, set_oob ns j _ h]

theorem no_of_nodes_prePass (g : Graph) (c f : Name) :
    (prePass g c f).no_of_nodes = g.no_of_nodes := by
  simp [prePass, Graph.no_of_nodes]

theorem getD_default_irrel {α : Type _} (l : List α) (i : ℕ) (d1 d2 : α) (h : i < l.length) :
    l.getD i d1 = l.getD i d2 := by
  induction l generalizing i with
  | nil => simp at h
  | cons x xs ih =>
    cases i with
    | zero => rfl
    | succ j => simpa [List.getD] using ih j (by simpa using h)

theorem node_prePass (g : Graph) (c f : Name) (i : ℕ) (h : i < g.no_of_nodes) :
    (prePass g c f).node i =
      { g.node i with properties := mapSet (mapSet (g.node i).properties c ⟨[0]⟩) f ⟨[0]⟩ } := by
  have hl : i < (g.nodes_.map (fun n =>
      { n with properties := mapSet (mapSet n.properties c ⟨[0]⟩) f ⟨[0]⟩ })).length := by
    simpa [Graph.no_of_nodes] using h
  simp only [prePass, Graph.node]
  rw [getD_default_irrel _ i (⟨0, []⟩ : Node)
    (⟨0, mapSet (mapSet ([] : List (Name × Property)) c ⟨[0]⟩) f ⟨[0]⟩⟩ : Node) hl]
  exact getD_map (fun n =>
    { n with properties := mapSet (mapSet n.properties c ⟨[0]⟩) f ⟨[0]⟩ }) g.nodes_ i ⟨0, []⟩ h

theorem node_prePass_oob (g : Graph) (c f : Name) (i : ℕ) (h : g.no_of_nodes ≤ i) :
    (prePass g c f).node i = g.node i := by
  simp only [prePass, Graph.node]
  rw [getD_ge_length _ _ _ (by simpa [Graph.no_of_nodes] using h),
    getD_ge_length _ _ _ (by simpa [Graph.no_of_nodes] using h)]

/-!  The value view of a graph: `propView g j k` is the property stored under
name `k` at node `j` (an empty default off the map or off the node list).
Every read the scorer performs factors through this view, and every write's
effect on the view is determined by the view — the key to the determinism
claim. -/

def propView (g : Graph) (j : ℕ) (k : Name) : Property :=
  mapGetD (g.node j).properties k ⟨[]⟩

def bumpedProp (p : Property) (δ : ℝ) : Property :=
  ⟨p.values.set 0 (p.values.getD 0 0 + δ)⟩

theorem bumpProp_eq (n : Node) (k : Name) (δ : ℝ) :
    n.bumpProp k δ =
      { n with properties := mapSet n.properties k (bumpedProp (mapGetD n.properties k ⟨[]⟩) δ) } := rfl

theorem propView_touch (g : Graph) (j : ℕ) (k : Name) (j' : ℕ) (k' : Name) :
    propView (g.touchProp j k) j' k' = propView g j' k' := by
  unfold propView Graph.touchProp
  by_cases hj : j' = j
  · subst hj
    by_cases hlt : j' < g.no_of_nodes
    · rw [node_modifyNode_self _ _ _ hlt]
      exact mapGetD_touch _ _ _
    · rw [modifyNode_oob _ _ _ (le_of_not_lt hlt)]
  · rw [node_modifyNode_ne _ _ _ _ hj]

theorem no_of_nodes_touch (g : Graph) (j : ℕ) (k : Name) :
    (g.touchProp j k).no_of_nodes = g.no_of_nodes := no_of_nodes_modifyNode _ _ _

theorem no_of_nodes_bumpAt (g : Graph) (j : ℕ) (k : Name) (δ : ℝ) :
    (g.bumpAt j k δ).no_of_nodes = g.no_of_nodes := no_of_nodes_modifyNode _ _ _

theorem propView_bumpAt (g : Graph) (j : ℕ) (k : Name) (δ : ℝ) (j' : ℕ) (k' : Name) :
    propView (g.bumpAt j k δ) j' k' =
      if j' = j ∧ j < g.no_of_nodes ∧ k' = k then bumpedProp (propView g j k) δ
      else propView g j' k' := by
  unfold propView Graph.bumpAt
  by_cases hj : j' = j
  · subst hj
    by_cases hlt : j' < g.no_of_nodes
    · rw [node_modifyNode_self _ _ _ hlt, bumpProp_eq]
      by_cases hk : k' = k
      · subst hk
        simp only [hlt, and_true, true_and, if_pos rfl]
        exact mapGetD_set_eq _ _ _ _
      · simp only [hlt, true_and, hk, and_false, if_false]
        exact mapGetD_set_ne _ _ _ _ _ hk
    · rw [modifyNode_oob _ _ _ (le_of_not_lt hlt)]
      simp [hlt]
  · rw [node_modifyNode_ne _ _ _ _ hj]
    simp [hj]

theorem propView_prePass (g : Graph) (c f : Name) (j : ℕ) (k : Name) :
    propView (prePass g c f) j k =
      if j < g.no_of_nodes ∧ (k = c ∨ k = f) then ⟨[0]⟩ else propView g j k := by
  unfold propView
  by_cases hlt : j < g.no_of_nodes
  · rw [node_prePass _ _ _ _ hlt]
    by_cases hkf : k = f
    · subst hkf
      simpa [hlt] using mapGetD_set_eq (mapSet (g.node j).properties c ⟨[0]⟩) k ⟨[0]⟩ ⟨[]⟩
    · rw [mapGetD_set_ne _ _ _ _ _ hkf]
      by_cases hkc : k = c
      · subst hkc
        simpa [hlt, hkf] using mapGetD_set_eq (g.node j).properties k ⟨[0]⟩ ⟨[]⟩
      · rw [mapGetD_set_ne _ _ _ _ _ hkc]
        simp [hkc, hkf]
  · rw [node_prePass_oob _ _ _ _ (le_of_not_lt hlt)]
    simp [hlt]

end BrainGraph

namespace BrainGraph

theorem mapGetD_node_eq_propView (g : Graph) (j : ℕ) (k : Name) :
    mapGetD (g.node j).properties k ⟨[]⟩ = propView g j k := rfl

theorem set_getD_self {α : Type _} (l : List α) (j : ℕ) (d : α) :
    l.set j (l.getD j d) = l := by
  induction l generalizing j with
  | nil => simp
  | cons x xs ih =>
    cases j with
    | zero => rfl
    | succ j' => simpa [List.getD] using ih j'

/-- `operator[]` on a key that is already present (or on a node that does not
exist) has no effect on the graph. -/
theorem touchProp_eq_self (g : Graph) (j : ℕ) (k : Name)
    (h : (mapFind (g.node j).properties k).isSome ∨ g.no_of_nodes ≤ j) :
    g.touchProp j k = g := by
  rcases h with h | h
  · cases g with
    | mk ns es =>
      have h' : (mapFind (ns.getD j (⟨0, []⟩ : Node)).properties k).isSome := h
      unfold Graph.touchProp Graph.modifyNode
      simp only [mapTouch_present _ _ h']
      congr 1
      exact set_getD_self ns j _
  · exact modifyNode_oob _ _ _ h

/-- The per-path score, expressed through the value view of the graph at the
start of the path's iteration.  `scoreStep_eq` below shows the source's
reads-after-touches compute exactly this. -/
noncomputable def pathScore (prior : Name) (g : Graph) (path : List DecoratedNode) : ℝ :=
  Real.exp (-(((path.getLastD default).weight
      - Real.log (Real.sqrt ((propView g path.headI.id prior).get 0))
      - Real.log (Real.sqrt ((propView g (path.getLastD default).id prior).get 0)))
    / ((path.length : ℝ) - 1)))

theorem scoreStep_eq (p c f : Name) (g : Graph) (path : List DecoratedNode) :
    scoreStep p c f g path =
      if 0 < (path.length : ℝ) - 1 then
        path.foldl (fun acc e => (acc.bumpAt e.id c 1).bumpAt e.id f (pathScore p g path))
          ((g.touchProp path.headI.id p).touchProp (path.getLastD default).id p)
      else g := by
  by_cases hc : (0 : ℝ) < (path.length : ℝ) - 1
  · rw [if_pos hc]
    show (if 0 < (path.length : ℝ) - 1 then _ else g) = _
    rw [if_pos hc]
    have h1 : mapGetD ((g.touchProp path.headI.id p).node path.headI.id).properties p ⟨[]⟩
        = propView g path.headI.id p := propView_touch g path.headI.id p path.headI.id p
    have h2 : mapGetD (((g.touchProp path.headI.id p).touchProp
          (path.getLastD default).id p).node (path.getLastD default).id).properties p ⟨[]⟩
        = propView g (path.getLastD default).id p := by
      rw [mapGetD_node_eq_propView, propView_touch, propView_touch]
    rw [h1, h2]
    rfl
  · rw [if_neg hc]
    show (if 0 < (path.length : ℝ) - 1 then _ else g) = g
    rw [if_neg hc]

theorem scoreStep_short (p c f : Name) (g : Graph) (path : List DecoratedNode)
    (h : path.length ≤ 1) : scoreStep p c f g path = g := by
  rw [scoreStep_eq, if_neg]
  simp only [not_lt, sub_nonpos]
  exact_mod_cast h

theorem no_of_nodes_bumpFold (c f : Name) (s : ℝ) (entries : List DecoratedNode) (g : Graph) :
    (entries.foldl (fun acc e => (acc.bumpAt e.id c 1).bumpAt e.id f s) g).no_of_nodes
      = g.no_of_nodes := by
  induction entries generalizing g with
  | nil => rfl
  | cons e es ih => rw [List.foldl_cons, ih, no_of_nodes_bumpAt, no_of_nodes_bumpAt]

theorem no_of_nodes_scoreStep (p c f : Name) (g : Graph) (path : List DecoratedNode) :
    (scoreStep p c f g path).no_of_nodes = g.no_of_nodes := by
  rw [scoreStep_eq]
  by_cases hc : (0 : ℝ) < (path.length : ℝ) - 1
  · rw [if_pos hc, no_of_nodes_bumpFold, no_of_nodes_touch, no_of_nodes_touch]
  · rw [if_neg hc]

theorem no_of_nodes_scoreFold (p c f : Name) (r2r : ROItoROI) :
    ∀ g0 : Graph, (r2r.foldl (scoreStep p c f) g0).no_of_nodes = g0.no_of_nodes := by
  induction r2r with
  | nil => intro g0; rfl
  | cons path rest ih =>
    intro g0
    rw [List.foldl_cons, ih, no_of_nodes_scoreStep]

theorem no_of_nodes_calculate (g : Graph) (r2r : ROItoROI) (p c f : Name) :
    (g.calculate_node_importance r2r p c f).no_of_nodes = g.no_of_nodes := by
  unfold Graph.calculate_node_importance
  rw [no_of_nodes_scoreFold, no_of_nodes_prePass]

theorem propView_bumpAt_fun (g : Graph) (j : ℕ) (k : Name) (δ : ℝ) :
    propView (g.bumpAt j k δ) = fun j' k' =>
      if j' = j ∧ j < g.no_of_nodes ∧ k' = k then bumpedProp (propView g j k) δ
      else propView g j' k' :=
  funext fun j' => funext fun k' => propView_bumpAt g j k δ j' k'

theorem propView_doubleBump_congr (g₁ g₂ : Graph) (e : DecoratedNode) (c f : Name) (s : ℝ)
    (hlen : g₁.no_of_nodes = g₂.no_of_nodes) (hview : propView g₁ = propView g₂) :
    propView ((g₁.bumpAt e.id c 1).bumpAt e.id f s)
      = propView ((g₂.bumpAt e.id c 1).bumpAt e.id f s) := by
  rw [propView_bumpAt_fun, propView_bumpAt_fun, propView_bumpAt_fun, propView_bumpAt_fun,
    no_of_nodes_bumpAt, no_of_nodes_bumpAt, hlen, hview]

theorem propView_bumpFold_congr (c f : Name) (s : ℝ) (entries : List DecoratedNode)
    (g₁ g₂ : Graph) (hlen : g₁.no_of_nodes = g₂.no_of_nodes)
    (hview : propView g₁ = propView g₂) :
    propView (entries.foldl (fun acc e => (acc.bumpAt e.id c 1).bumpAt e.id f s) g₁)
      = propView (entries.foldl (fun acc e => (acc.bumpAt e.id c 1).bumpAt e.id f s) g₂) := by
  induction entries generalizing g₁ g₂ with
  | nil => exact hview
  | cons e es ih =>
    rw [List.foldl_cons, List.foldl_cons]
    exact ih _ _ (by rw [no_of_nodes_bumpAt, no_of_nodes_bumpAt, no_of_nodes_bumpAt,
      no_of_nodes_bumpAt, hlen]) (propView_doubleBump_congr _ _ _ _ _ _ hlen hview)

theorem propView_touch_fun (g : Graph) (j : ℕ) (k : Name) :
    propView (g.touchProp j k) = propView g :=
  funext fun j' => funext fun k' => propView_touch g j k j' k'

theorem propView_scoreStep_congr (p c f : Name) (path : List DecoratedNode) (g₁ g₂ : Graph)
    (hlen : g₁.no_of_nodes = g₂.no_of_nodes) (hview : propView g₁ = propView g₂) :
    propView (scoreStep p c f g₁ path) = propView (scoreStep p c f g₂ path) := by
  rw [scoreStep_eq, scoreStep_eq]
  by_cases hc : (0 : ℝ) < (path.length : ℝ) - 1
  · rw [if_pos hc, if_pos hc]
    have hs : pathScore p g₁ path = pathScore p g₂ path := by
      unfold pathScore; rw [hview]
    rw [hs]
    exact propView_bumpFold_congr _ _ _ _ _ _
      (by rw [no_of_nodes_touch, no_of_nodes_touch, no_of_nodes_touch, no_of_nodes_touch, hlen])
      (by rw [propView_touch_fun, propView_touch_fun, propView_touch_fun, propView_touch_fun, hview])
  · rw [if_neg hc, if_neg hc]
    exact hview

theorem propView_scoreFold_congr (p c f : Name) (r2r : ROItoROI) (g₁ g₂ : Graph)
    (hlen : g₁.no_of_nodes = g₂.no_of_nodes) (hview : propView g₁ = propView g₂) :
    propView (r2r.foldl (scoreStep p c f) g₁) = propView (r2r.foldl (scoreStep p c f) g₂) := by
  induction r2r generalizing g₁ g₂ with
  | nil => exact hview
  | cons path rest ih =>
    rw [List.foldl_cons, List.foldl_cons]
    exact ih _ _ (by rw [no_of_nodes_scoreStep, no_of_nodes_scoreStep, hlen])
      (propView_scoreStep_congr _ _ _ _ _ _ hlen hview)

theorem propView_bumpFold_offkey (c f : Name) (s : ℝ) (entries : List DecoratedNode)
    (g : Graph) (j : ℕ) (k : Name) (hkc : k ≠ c) (hkf : k ≠ f) :
    propView (entries.foldl (fun acc e => (acc.bumpAt e.id c 1).bumpAt e.id f s) g) j k
      = propView g j k := by
  induction entries generalizing g with
  | nil => rfl
  | cons e es ih =>
    rw [List.foldl_cons, ih]
    simp only [propView_bumpAt, no_of_nodes_bumpAt]
    simp [hkc, hkf]

theorem propView_scoreStep_offkey (p c f : Name) (path : List DecoratedNode) (g : Graph)
    (j : ℕ) (k : Name) (hkc : k ≠ c) (hkf : k ≠ f) :
    propView (scoreStep p c f g path) j k = propView g j k := by
  rw [scoreStep_eq]
  by_cases hc : (0 : ℝ) < (path.length : ℝ) - 1
  · rw [if_pos hc, propView_bumpFold_offkey _ _ _ _ _ _ _ hkc hkf,
      propView_touch, propView_touch]
  · rw [if_neg hc]

theorem propView_calculate_offkey (g : Graph) (r2r : ROItoROI) (p c f : Name)
    (j : ℕ) (k : Name) (hkc : k ≠ c) (hkf : k ≠ f) :
    propView (g.calculate_node_importance r2r p c f) j k = propView g j k := by
  unfold Graph.calculate_node_importance
  have hbase : propView (prePass g c f) j k = propView g j k := by
    rw [propView_prePass]; simp [hkc, hkf]
  generalize prePass g c f = g0 at hbase ⊢
  induction r2r generalizing g0 with
  | nil => exact hbase
  | cons path rest ih =>
    rw [List.foldl_cons]
    exact ih _ (by rw [propView_scoreStep_offkey _ _ _ _ _ _ _ hkc hkf]; exact hbase)

theorem propView_bumpFold_notin (c f : Name) (s : ℝ) (entries : List DecoratedNode)
    (g : Graph) (j : ℕ) (k : Name) (h : ∀ e ∈ entries, e.id ≠ j) :
    propView (entries.foldl (fun acc e => (acc.bumpAt e.id c 1).bumpAt e.id f s) g) j k
      = propView g j k := by
  induction entries generalizing g with
  | nil => rfl
  | cons e es ih =>
    rw [List.foldl_cons, ih _ (fun x hx => h x (List.mem_cons_of_mem _ hx))]
    have hj : j ≠ e.id := Ne.symm (h e (List.mem_cons_self _ _))
    simp only [propView_bumpAt, no_of_nodes_bumpAt]
    simp [hj]

theorem propView_scoreStep_notin (p c f : Name) (path : List DecoratedNode) (g : Graph)
    (j : ℕ) (k : Name) (h : ∀ e ∈ path, e.id ≠ j) :
    propView (scoreStep p c f g path) j k = propView g j k := by
  rw [scoreStep_eq]
  by_cases hc : (0 : ℝ) < (path.length : ℝ) - 1
  · rw [if_pos hc, propView_bumpFold_notin _ _ _ _ _ _ _ h, propView_touch, propView_touch]
  · rw [if_neg hc]

end BrainGraph

namespace BrainGraph

theorem propView_oob (g : Graph) (j : ℕ) (k : Name) (h : g.no_of_nodes ≤ j) :
    propView g j k = ⟨[]⟩ := by
  unfold propView Graph.node
  rw [getD_ge_length _ _ _ h]
  rfl

theorem propView_prePass_calculate (g : Graph) (r2r : ROItoROI) (p c f : Name) :
    propView (prePass (g.calculate_node_importance r2r p c f) c f) = propView (prePass g c f) := by
  funext j k
  rw [propView_prePass, propView_prePass, no_of_nodes_calculate]
  by_cases hc : j < g.no_of_nodes ∧ (k = c ∨ k = f)
  · rw [if_pos hc, if_pos hc]
  · rw [if_neg hc, if_neg hc]
    by_cases hj : j < g.no_of_nodes
    · have hk : ¬(k = c ∨ k = f) := fun hor => hc ⟨hj, hor⟩
      push_neg at hk
      exact propView_calculate_offkey g r2r p c f j k hk.1 hk.2
    · rw [propView_oob _ _ _ (le_of_not_lt hj),
        propView_oob _ _ _ (by rw [no_of_nodes_calculate]; exact le_of_not_lt hj)]

/-- Claim C8.  The scorer is deterministic: a second run of
`calculate_node_importance` immediately after a first run with the same path
collection and property names produces exactly the same `count` and
`confidence` values on every node as the first run left them (and two runs
from the same starting state are the same function application, hence
trivially equal).  The key fact is that every value the scorer reads is the
`prior` entry of the current state *after* its own reset pass, so the reads of
the two runs coincide even when `prior` aliases `count` or `confidence`. -/
theorem calculate_node_importance_deterministic (g : Graph) (r2r : ROItoROI)
    (prior count confidence : Name) (j : ℕ) :
    mapGetD (((g.calculate_node_importance r2r prior count confidence).calculate_node_importance
        r2r prior count confidence).node j).properties count ⟨[]⟩
      = mapGetD ((g.calculate_node_importance r2r prior count confidence).node j).properties
          count ⟨[]⟩
    ∧ mapGetD (((g.calculate_node_importance r2r prior count confidence).calculate_node_importance
        r2r prior count confidence).node j).properties confidence ⟨[]⟩
      = mapGetD ((g.calculate_node_importance r2r prior count confidence).node j).properties
          confidence ⟨[]⟩ := by
  have hview : propView ((g.calculate_node_importance r2r prior count confidence).calculate_node_importance
      r2r prior count confidence) = propView (g.calculate_node_importance r2r prior count confidence) := by
    show propView (List.foldl (scoreStep prior count confidence)
        (prePass (g.calculate_node_importance r2r prior count confidence) count confidence) r2r) = _
    rw [show (g.calculate_node_importance r2r prior count confidence : Graph)
      = List.foldl (scoreStep prior count confidence) (prePass g count confidence) r2r from rfl]
    exact propView_scoreFold_congr prior count confidence r2r _ _
      (by rw [no_of_nodes_prePass, no_of_nodes_prePass, no_of_nodes_scoreFold,
        no_of_nodes_prePass])
      (propView_prePass_calculate g r2r prior count confidence)
  exact ⟨congrFun (congrFun hview j) count, congrFun (congrFun hview j) confidence⟩

/-- Claim C7.  After the scorer runs, every node that appears on no path with
at least one edge (every path containing it has fewer than two entries) has
`count[0] = 0` and `confidence[0] = 0`; moreover the reset pass zeroes both
properties on every node, and a path with `|P| - 1 ≤ 0` is skipped entirely,
mutating nothing. -/
theorem calculate_node_importance_reset (g : Graph) (r2r : ROItoROI)
    (prior count confidence : Name) (j : ℕ) (hj : j < g.no_of_nodes)
    (hnotin : ∀ path ∈ r2r, 2 ≤ path.length → ∀ e ∈ path, e.id ≠ j) :
    (propView (g.calculate_node_importance r2r prior count confidence) j count).get 0 = 0
    ∧ (propView (g.calculate_node_importance r2r prior count confidence) j confidence).get 0 = 0
    ∧ (∀ i < g.no_of_nodes,
        propView (prePass g count confidence) i count = ⟨[0]⟩
        ∧ propView (prePass g count confidence) i confidence = ⟨[0]⟩)
    ∧ (∀ path : List DecoratedNode, path.length ≤ 1 →
        scoreStep prior count confidence g path = g) := by
  have key : ∀ (paths : ROItoROI) (g0 : Graph) (k : Name),
      (∀ path ∈ paths, 2 ≤ path.length → ∀ e ∈ path, e.id ≠ j) →
      propView (paths.foldl (scoreStep prior count confidence) g0) j k = propView g0 j k := by
    intro paths
    induction paths with
    | nil => intro g0 k _; rfl
    | cons path rest ih =>
      intro g0 k h
      rw [List.foldl_cons, ih _ _ (fun q hq => h q (List.mem_cons_of_mem _ hq))]
      by_cases hlen : 2 ≤ path.length
      · exact propView_scoreStep_notin _ _ _ _ _ _ _ (h path (List.mem_cons_self _ _) hlen)
      · rw [scoreStep_short _ _ _ _ _ (by omega)]
  refine ⟨?_, ?_, ?_, ?_⟩
  · unfold Graph.calculate_node_importance
    rw [key r2r _ count hnotin, propView_prePass, if_pos ⟨hj, Or.inl rfl⟩]
    simp [Property.get]
  · unfold Graph.calculate_node_importance
    rw [key r2r _ confidence hnotin, propView_prePass, if_pos ⟨hj, Or.inr rfl⟩]
    simp [Property.get]
  · intro i hi
    constructor
    · rw [propView_prePass, if_pos ⟨hi, Or.inl rfl⟩]
    · rw [propView_prePass, if_pos ⟨hi, Or.inr rfl⟩]
  · intro path hp
    exact scoreStep_short _ _ _ _ _ hp

/-- Witness for `calculate_node_importance_reset` at a concrete input: a
2-node graph, a path touching only node 1, queried at node 0. -/
theorem calculate_node_importance_reset_witness :
    ((0 : ℕ) < (Graph.mk [⟨0, []⟩, ⟨1, []⟩] [[], []]).no_of_nodes
      ∧ (∀ path ∈ ([[⟨1, 0⟩, ⟨1, 2⟩]] : ROItoROI), 2 ≤ path.length →
          ∀ e ∈ path, e.id ≠ 0))
    ∧ (propView ((Graph.mk [⟨0, []⟩, ⟨1, []⟩] [[], []]).calculate_node_importance
        [[⟨1, 0⟩, ⟨1, 2⟩]] ("p".toList) ("c".toList) ("f".toList)) 0 ("c".toList)).get 0 = 0 := by
  refine ⟨⟨by decide, by decide⟩, ?_⟩
  exact (calculate_node_importance_reset (Graph.mk [⟨0, []⟩, ⟨1, []⟩] [[], []])
    [[⟨1, 0⟩, ⟨1, 2⟩]] ("p".toList) ("c".toList) ("f".toList) 0 (by decide) (by decide)).1

end BrainGraph

namespace BrainGraph

theorem bumpedProp_single (x δ : ℝ) : bumpedProp ⟨[x]⟩ δ = ⟨[x + δ]⟩ := by
  simp [bumpedProp]

/-- Claim C2.  For a single path `[(a, 0), (b, w)]` between two distinct valid
nodes whose `prior` properties are present with positive values `p_a`, `p_b`,
the scorer leaves `count[0] = 1` on both endpoints and
`confidence[0] = exp(-((w - log √p_a - log √p_b) / 1))` on both (the
increments land on the zeroed state left by the reset pass, so the final
values are the increments). -/
theorem single_edge_path_score (g : Graph) (a b : ℕ) (w p_a p_b : ℝ)
    (prior count confidence : Name)
    (ha : a < g.no_of_nodes) (hb : b < g.no_of_nodes) (hab : a ≠ b)
    (hpc : prior ≠ count) (hpf : prior ≠ confidence) (hcf : count ≠ confidence)
    (hfa : (mapFind (g.node a).properties prior).isSome)
    (hfb : (mapFind (g.node b).properties prior).isSome)
    (hva : (propView g a prior).get 0 = p_a) (hvb : (propView g b prior).get 0 = p_b)
    (hpa : 0 < p_a) (hpb : 0 < p_b) :
    (propView (g.calculate_node_importance [[⟨a, 0⟩, ⟨b, w⟩]] prior count confidence)
        a count).get 0 = 1
    ∧ (propView (g.calculate_node_importance [[⟨a, 0⟩, ⟨b, w⟩]] prior count confidence)
        b count).get 0 = 1
    ∧ (propView (g.calculate_node_importance [[⟨a, 0⟩, ⟨b, w⟩]] prior count confidence)
        a confidence).get 0
      = Real.exp (-((w - Real.log (Real.sqrt p_a) - Real.log (Real.sqrt p_b)) / 1))
    ∧ (propView (g.calculate_node_importance [[⟨a, 0⟩, ⟨b, w⟩]] prior count confidence)
        b confidence).get 0
      = Real.exp (-((w - Real.log (Real.sqrt p_a) - Real.log (Real.sqrt p_b)) / 1)) := by
  have hfa' : (mapFind ((prePass g count confidence).node a).properties prior).isSome := by
    rw [node_prePass _ _ _ _ ha]
    simp only []
    rw [mapFind_set_ne _ _ _ _ hpf, mapFind_set_ne _ _ _ _ hpc]
    exact hfa
  have hfb' : (mapFind ((prePass g count confidence).node b).properties prior).isSome := by
    rw [node_prePass _ _ _ _ hb]
    simp only []
    rw [mapFind_set_ne _ _ _ _ hpf, mapFind_set_ne _ _ _ _ hpc]
    exact hfb
  have hlen2 : (0 : ℝ) < (([(⟨a, 0⟩ : DecoratedNode), ⟨b, w⟩]).length : ℝ) - 1 := by
    norm_num
  have hsa : propView (prePass g count confidence) a prior = propView g a prior := by
    rw [propView_prePass]
    simp [hpc, hpf]
  have hsb : propView (prePass g count confidence) b prior = propView g b prior := by
    rw [propView_prePass]
    simp [hpc, hpf]
  have hs : pathScore prior (prePass g count confidence) [⟨a, 0⟩, ⟨b, w⟩]
      = Real.exp (-((w - Real.log (Real.sqrt p_a) - Real.log (Real.sqrt p_b)) / 1)) := by
    show Real.exp (-((w
        - Real.log (Real.sqrt ((propView (prePass g count confidence) a prior).get 0))
        - Real.log (Real.sqrt ((propView (prePass g count confidence) b prior).get 0)))
      / ((((2 : ℕ) : ℝ)) - 1))) = _
    rw [hsa, hsb, hva, hvb]
    norm_num
  have hres : g.calculate_node_importance [[⟨a, 0⟩, ⟨b, w⟩]] prior count confidence
      = (((((prePass g count confidence).bumpAt a count 1).bumpAt a confidence
            (Real.exp (-((w - Real.log (Real.sqrt p_a) - Real.log (Real.sqrt p_b)) / 1)))).bumpAt
          b count 1).bumpAt b confidence
            (Real.exp (-((w - Real.log (Real.sqrt p_a) - Real.log (Real.sqrt p_b)) / 1)))) := by
    unfold Graph.calculate_node_importance
    rw [List.foldl_cons, List.foldl_nil, scoreStep_eq, if_pos hlen2]
    rw [show ([(⟨a, 0⟩ : DecoratedNode), ⟨b, w⟩]).headI = (⟨a, 0⟩ : DecoratedNode) from rfl,
      show ([(⟨a, 0⟩ : DecoratedNode), ⟨b, w⟩]).getLastD default = (⟨b, w⟩ : DecoratedNode) from rfl]
    rw [touchProp_eq_self _ _ _ (Or.inl hfa'), touchProp_eq_self _ _ _ (Or.inl hfb')]
    rw [hs]
    rfl
  have hNa : a < (prePass g count confidence).no_of_nodes := by
    rw [no_of_nodes_prePass]; exact ha
  have hNb : b < (prePass g count confidence).no_of_nodes := by
    rw [no_of_nodes_prePass]; exact hb
  have hba : b ≠ a := Ne.symm hab
  have hfc : confidence ≠ count := Ne.symm hcf
  have hvca : propView (prePass g count confidence) a count = ⟨[0]⟩ := by
    rw [propView_prePass, if_pos ⟨ha, Or.inl rfl⟩]
  have hvcb : propView (prePass g count confidence) b count = ⟨[0]⟩ := by
    rw [propView_prePass, if_pos ⟨hb, Or.inl rfl⟩]
  have hvfa : propView (prePass g count confidence) a confidence = ⟨[0]⟩ := by
    rw [propView_prePass, if_pos ⟨ha, Or.inr rfl⟩]
  have hvfb : propView (prePass g count confidence) b confidence = ⟨[0]⟩ := by
    rw [propView_prePass, if_pos ⟨hb, Or.inr rfl⟩]
  refine ⟨?_, ?_, ?_, ?_⟩
  · rw [hres]
    simp only [propView_bumpAt, no_of_nodes_bumpAt]
    simp [hab, hba, hcf, hfc, hNa, hNb, hvca, bumpedProp_single, Property.get]
  · rw [hres]
    simp only [propView_bumpAt, no_of_nodes_bumpAt]
    simp [hab, hba, hcf, hfc, hNa, hNb, hvcb, bumpedProp_single, Property.get]
  · rw [hres]
    simp only [propView_bumpAt, no_of_nodes_bumpAt]
    simp [hab, hba, hcf, hfc, hNa, hNb, hvfa, bumpedProp_single, Property.get]
  · rw [hres]
    simp only [propView_bumpAt, no_of_nodes_bumpAt]
    simp [hab, hba, hcf, hfc, hNa, hNb, hvfb, bumpedProp_single, Property.get]

end BrainGraph

namespace BrainGraph

/-- A concrete two-node graph with prior "p" = 1 on both nodes, for the C2
witness. -/
def c2g : Graph :=
  ⟨[⟨0, [("p".toList, ⟨[1]⟩)]⟩, ⟨1, [("p".toList, ⟨[1]⟩)]⟩], [[], []]⟩

/-- Witness for `single_edge_path_score` at the concrete graph `c2g` with the
path `[(0, 0), (1, 2)]` (the spec's scenario S1). -/
theorem single_edge_path_score_witness :
    ((0 : ℕ) < c2g.no_of_nodes ∧ (1 : ℕ) < c2g.no_of_nodes ∧ (0 : ℕ) ≠ 1
      ∧ (mapFind (c2g.node 0).properties ("p".toList)).isSome
      ∧ (mapFind (c2g.node 1).properties ("p".toList)).isSome
      ∧ (propView c2g 0 ("p".toList)).get 0 = 1
      ∧ (propView c2g 1 ("p".toList)).get 0 = 1
      ∧ (0 : ℝ) < 1)
    ∧ (propView (c2g.calculate_node_importance [[⟨0, 0⟩, ⟨1, 2⟩]]
        ("p".toList) ("c".toList) ("f".toList)) 0 ("c".toList)).get 0 = 1 := by
  refine ⟨⟨by decide, by decide, by decide, by decide, by decide, rfl, rfl, by norm_num⟩, ?_⟩
  exact (single_edge_path_score c2g 0 1 2 1 1 ("p".toList) ("c".toList) ("f".toList)
    (by decide) (by decide) (by decide) (by decide) (by decide) (by decide)
    (by decide) (by decide) rfl rfl (by norm_num) (by norm_num)).1

end BrainGraph

namespace BrainGraph

/-- `std::map::find` on the property map of node `j`. -/
def nodeFind (g : Graph) (j : ℕ) (k : Name) : Option Property :=
  mapFind (g.node j).properties k

theorem nodeFind_bumpAt (g : Graph) (j : ℕ) (k : Name) (δ : ℝ) (j' : ℕ) (k' : Name) :
    nodeFind (g.bumpAt j k δ) j' k' =
      if j' = j ∧ j < g.no_of_nodes ∧ k' = k then some (bumpedProp (propView g j k) δ)
      else nodeFind g j' k' := by
  unfold nodeFind Graph.bumpAt
  by_cases hj : j' = j
  · subst hj
    by_cases hlt : j' < g.no_of_nodes
    · rw [node_modifyNode_self _ _ _ hlt, bumpProp_eq]
      by_cases hk : k' = k
      · subst hk
        simp only [hlt, and_true, true_and, if_pos rfl]
        exact mapFind_set_eq _ _ _
      · simp only [hlt, true_and, hk, and_false, if_false]
        exact mapFind_set_ne _ _ _ _ hk
    · rw [modifyNode_oob _ _ _ (le_of_not_lt hlt)]
      simp [hlt]
  · rw [node_modifyNode_ne _ _ _ _ hj]
    simp [hj]

theorem nodeFind_bumpAt_isSome (g : Graph) (j : ℕ) (k : Name) (δ : ℝ) (j' : ℕ) (k' : Name)
    (h : (nodeFind g j' k').isSome) : (nodeFind (g.bumpAt j k δ) j' k').isSome := by
  rw [nodeFind_bumpAt]
  split_ifs with hcond
  · simp
  · exact h

theorem bumpedProp_dim (p : Property) (δ : ℝ) : (bumpedProp p δ).dim = p.dim := by
  simp [bumpedProp, Property.dim]

theorem propView_bumpAt_dim (g : Graph) (j : ℕ) (k : Name) (δ : ℝ) (j' : ℕ) (k' : Name) :
    (propView (g.bumpAt j k δ) j' k').dim = (propView g j' k').dim := by
  rw [propView_bumpAt]
  split_ifs with h
  · rcases h with ⟨hj, hlt, hk⟩
    subst hj; subst hk
    rw [bumpedProp_dim]
  · rfl

theorem propView_scoreStep_dim (p c f : Name) (path : List DecoratedNode) (g : Graph)
    (j : ℕ) (k : Name) :
    (propView (scoreStep p c f g path) j k).dim = (propView g j k).dim := by
  rw [scoreStep_eq]
  by_cases hc : (0 : ℝ) < (path.length : ℝ) - 1
  · rw [if_pos hc]
    have hfold : ∀ (entries : List DecoratedNode) (g0 : Graph),
        (propView (entries.foldl (fun acc e =>
          (acc.bumpAt e.id c 1).bumpAt e.id f (pathScore p g path)) g0) j k).dim
        = (propView g0 j k).dim := by
      intro entries
      induction entries with
      | nil => intro g0; rfl
      | cons e es ih =>
        intro g0
        rw [List.foldl_cons, ih, propView_bumpAt_dim, propView_bumpAt_dim]
    rw [hfold, propView_touch, propView_touch]
  · rw [if_neg hc]

/-- The frame invariant carried through the scorer's path loop: the node count
is unchanged, every property under a name other than `count`/`confidence` is
untouched, and `count`/`confidence` are present on every valid node. -/
def scorerFrameInv (g gcur : Graph) (count confidence : Name) : Prop :=
  gcur.no_of_nodes = g.no_of_nodes
  ∧ (∀ j k, k ≠ count → k ≠ confidence → nodeFind gcur j k = nodeFind g j k)
  ∧ (∀ j, j < g.no_of_nodes →
      (nodeFind gcur j count).isSome ∧ (nodeFind gcur j confidence).isSome)

theorem scorerFrameInv_prePass (g : Graph) (c f : Name) :
    scorerFrameInv g (prePass g c f) c f := by
  refine ⟨no_of_nodes_prePass g c f, ?_, ?_⟩
  · intro j k hkc hkf
    unfold nodeFind
    by_cases hj : j < g.no_of_nodes
    · rw [node_prePass _ _ _ _ hj]
      simp only []
      rw [mapFind_set_ne _ _ _ _ hkf, mapFind_set_ne _ _ _ _ hkc]
    · rw [node_prePass_oob _ _ _ _ (le_of_not_lt hj)]
  · intro j hj
    constructor
    · unfold nodeFind
      rw [node_prePass _ _ _ _ hj]
      simp only []
      by_cases hcf : c = f
      · subst hcf
        rw [mapFind_set_eq]
        rfl
      · rw [mapFind_set_ne _ _ _ _ hcf, mapFind_set_eq]
        rfl
    · unfold nodeFind
      rw [node_prePass _ _ _ _ hj]
      simp only []
      rw [mapFind_set_eq]
      rfl

theorem scorerFrameInv_bumpFold (g : Graph) (c f : Name) (s : ℝ)
    (entries : List DecoratedNode) :
    ∀ gcur : Graph, scorerFrameInv g gcur c f →
      scorerFrameInv g
        (entries.foldl (fun acc e => (acc.bumpAt e.id c 1).bumpAt e.id f s) gcur) c f := by
  induction entries with
  | nil => intro gcur h; exact h
  | cons e es ih =>
    intro gcur h
    rw [List.foldl_cons]
    refine ih _ ⟨?_, ?_, ?_⟩
    · rw [no_of_nodes_bumpAt, no_of_nodes_bumpAt]
      exact h.1
    · intro j k hkc hkf
      rw [nodeFind_bumpAt, if_neg (fun hcond => hkf hcond.2.2), nodeFind_bumpAt,
        if_neg (fun hcond => hkc hcond.2.2)]
      exact h.2.1 j k hkc hkf
    · intro j hj
      exact ⟨nodeFind_bumpAt_isSome _ _ _ _ _ _ (nodeFind_bumpAt_isSome _ _ _ _ _ _
          ((h.2.2 j hj).1)),
        nodeFind_bumpAt_isSome _ _ _ _ _ _ (nodeFind_bumpAt_isSome _ _ _ _ _ _
          ((h.2.2 j hj).2))⟩

theorem scorerFrameInv_touch_self (g gcur : Graph) (p c f : Name) (e : ℕ)
    (hinv : scorerFrameInv g gcur c f)
    (he : (nodeFind g e p).isSome ∨ p = c ∨ p = f ∨ g.no_of_nodes ≤ e) :
    gcur.touchProp e p = gcur := by
  apply touchProp_eq_self
  by_cases hlt : e < g.no_of_nodes
  · left
    by_cases hpc : p = c
    · subst hpc
      exact (hinv.2.2 e hlt).1
    · by_cases hpf : p = f
      · subst hpf
        exact (hinv.2.2 e hlt).2
      · rcases he with hsome | h | h | h
        · show (nodeFind gcur e p).isSome
          rw [hinv.2.1 e p hpc hpf]
          exact hsome
        · exact absurd h hpc
        · exact absurd h hpf
        · exact absurd hlt (not_lt_of_le h)
  · right
    rw [hinv.1]
    exact le_of_not_lt hlt

theorem scorerFrameInv_scoreStep (g gcur : Graph) (p c f : Name) (path : List DecoratedNode)
    (hinv : scorerFrameInv g gcur c f)
    (hpath : 2 ≤ path.length →
      ((nodeFind g path.headI.id p).isSome ∨ p = c ∨ p = f ∨ g.no_of_nodes ≤ path.headI.id)
      ∧ ((nodeFind g (path.getLastD default).id p).isSome ∨ p = c ∨ p = f
          ∨ g.no_of_nodes ≤ (path.getLastD default).id)) :
    scorerFrameInv g (scoreStep p c f gcur path) c f := by
  rw [scoreStep_eq]
  by_cases hc : (0 : ℝ) < (path.length : ℝ) - 1
  · rw [if_pos hc]
    have hlen2 : 2 ≤ path.length := by
      by_contra hcon
      push_neg at hcon
      have : (path.length : ℝ) ≤ 1 := by exact_mod_cast Nat.lt_succ_iff.mp hcon
      linarith
    rw [scorerFrameInv_touch_self g gcur p c f _ hinv ((hpath hlen2).1)]
    rw [scorerFrameInv_touch_self g gcur p c f _ hinv ((hpath hlen2).2)]
    exact scorerFrameInv_bumpFold g c f _ path gcur hinv
  · rw [if_neg hc]
    exact hinv

end BrainGraph

namespace BrainGraph

/-- Claim C10 (amended).  Provided every endpoint of every scored path either
carries the `prior` property, or `prior` aliases `count`/`confidence`, or the
endpoint id is out of range: the scorer leaves every property whose name
differs from `count` and `confidence` unchanged on every node (same
`std::map::find` result), and it unconditionally replaces the `count` and
`confidence` entries of every node with present, dim-1 scalar properties
(creating them if absent and discarding any previous dimension).  Without the
proviso the scorer's `properties[prior]` reads insert an empty property under
the `prior` name at endpoint nodes lacking it
(`calculate_node_importance_frame_cex`). -/
theorem calculate_node_importance_frame (g : Graph) (r2r : ROItoROI)
    (prior count confidence : Name)
    (hpr : ∀ path ∈ r2r, 2 ≤ path.length →
      ((nodeFind g path.headI.id prior).isSome ∨ prior = count ∨ prior = confidence
        ∨ g.no_of_nodes ≤ path.headI.id)
      ∧ ((nodeFind g (path.getLastD default).id prior).isSome ∨ prior = count
        ∨ prior = confidence ∨ g.no_of_nodes ≤ (path.getLastD default).id)) :
    (∀ j k, k ≠ count → k ≠ confidence →
      nodeFind (g.calculate_node_importance r2r prior count confidence) j k = nodeFind g j k)
    ∧ (∀ j, j < g.no_of_nodes →
        (nodeFind (g.calculate_node_importance r2r prior count confidence) j count).isSome
        ∧ (nodeFind (g.calculate_node_importance r2r prior count confidence) j confidence).isSome
        ∧ (propView (g.calculate_node_importance r2r prior count confidence) j count).dim = 1
        ∧ (propView (g.calculate_node_importance r2r prior count confidence) j confidence).dim
            = 1) := by
  have hfoldinv : ∀ (paths : ROItoROI) (gcur : Graph),
      scorerFrameInv g gcur count confidence →
      (∀ path ∈ paths, 2 ≤ path.length →
        ((nodeFind g path.headI.id prior).isSome ∨ prior = count ∨ prior = confidence
          ∨ g.no_of_nodes ≤ path.headI.id)
        ∧ ((nodeFind g (path.getLastD default).id prior).isSome ∨ prior = count
          ∨ prior = confidence ∨ g.no_of_nodes ≤ (path.getLastD default).id)) →
      scorerFrameInv g (paths.foldl (scoreStep prior count confidence) gcur) count confidence := by
    intro paths
    induction paths with
    | nil => intro gcur h _; exact h
    | cons path rest ih =>
      intro gcur h hp
      rw [List.foldl_cons]
      exact ih _ (scorerFrameInv_scoreStep g gcur prior count confidence path h
          (hp path (List.mem_cons_self _ _)))
        (fun q hq => hp q (List.mem_cons_of_mem _ hq))
  have hinv : scorerFrameInv g (g.calculate_node_importance r2r prior count confidence)
      count confidence := by
    unfold Graph.calculate_node_importance
    exact hfoldinv r2r _ (scorerFrameInv_prePass g count confidence) hpr
  have hdim : ∀ k', (k' = count ∨ k' = confidence) → ∀ j, j < g.no_of_nodes →
      (propView (g.calculate_node_importance r2r prior count confidence) j k').dim = 1 := by
    intro k' hk' j hj
    unfold Graph.calculate_node_importance
    have hfold : ∀ (paths : ROItoROI) (gcur : Graph),
        (propView (paths.foldl (scoreStep prior count confidence) gcur) j k').dim
          = (propView gcur j k').dim := by
      intro paths
      induction paths with
      | nil => intro gcur; rfl
      | cons path rest ih =>
        intro gcur
        rw [List.foldl_cons, ih, propView_scoreStep_dim]
    rw [hfold, propView_prePass, if_pos ⟨hj, hk'⟩]
    rfl
  exact ⟨hinv.2.1, fun j hj => ⟨(hinv.2.2 j hj).1, (hinv.2.2 j hj).2,
    hdim count (Or.inl rfl) j hj, hdim confidence (Or.inr rfl) j hj⟩⟩

/-- Counterexample to claim C10 as stated: on a one-node graph with no
properties, scoring the single path `[(0, 0), (0, 1)]` INSERTS an empty
property under the `prior` name "p" at node 0 — a property whose name differs
from the count and confidence names is not left unchanged. -/
theorem calculate_node_importance_frame_cex :
    nodeFind ((Graph.mk [⟨0, []⟩] [[]]).calculate_node_importance [[⟨0, 0⟩, ⟨0, 1⟩]]
        ("p".toList) ("c".toList) ("f".toList)) 0 ("p".toList) = some ⟨[]⟩
    ∧ nodeFind (Graph.mk [⟨0, []⟩] [[]]) 0 ("p".toList) = none := by
  constructor
  · have hpc : ("p".toList : Name) ≠ "c".toList := by decide
    have hpf : ("p".toList : Name) ≠ "f".toList := by decide
    unfold Graph.calculate_node_importance
    rw [List.foldl_cons, List.foldl_nil, scoreStep_eq]
    rw [if_pos (by norm_num :
      (0 : ℝ) < (([(⟨0, 0⟩ : DecoratedNode), ⟨0, 1⟩]).length : ℝ) - 1)]
    rw [show ([(⟨0, 0⟩ : DecoratedNode), ⟨0, 1⟩]).headI = (⟨0, 0⟩ : DecoratedNode) from rfl,
      show ([(⟨0, 0⟩ : DecoratedNode), ⟨0, 1⟩]).getLastD default
        = (⟨0, (1 : ℝ)⟩ : DecoratedNode) from rfl]
    have htouch : ((prePass (Graph.mk [⟨0, []⟩] [[]]) ("c".toList) ("f".toList)).touchProp
        (⟨0, (0 : ℝ)⟩ : DecoratedNode).id ("p".toList))
        = Graph.mk [⟨0, [("c".toList, ⟨[0]⟩), ("f".toList, ⟨[0]⟩), ("p".toList, ⟨[]⟩)]⟩] [[]] := by
      rfl
    rw [htouch]
    rw [touchProp_eq_self _ _ _ (Or.inl (by decide))]
    rw [List.foldl_cons, List.foldl_cons, List.foldl_nil]
    rw [nodeFind_bumpAt, if_neg (fun hcond => hpf hcond.2.2),
      nodeFind_bumpAt, if_neg (fun hcond => hpc hcond.2.2),
      nodeFind_bumpAt, if_neg (fun hcond => hpf hcond.2.2),
      nodeFind_bumpAt, if_neg (fun hcond => hpc hcond.2.2)]
    rfl
  · rfl

/-- Witness for `calculate_node_importance_frame` at a concrete input: an
empty path collection on a one-node graph with a property "x"; the frame
conclusion holds at (node 0, name "x"). -/
theorem calculate_node_importance_frame_witness :
    (∀ path ∈ ([] : ROItoROI), 2 ≤ path.length →
      ((nodeFind (Graph.mk [⟨0, [("x".toList, ⟨[5]⟩)]⟩] [[]]) path.headI.id
          ("p".toList)).isSome
        ∨ ("p".toList : Name) = "c".toList ∨ ("p".toList : Name) = "f".toList
        ∨ (Graph.mk [⟨0, [("x".toList, ⟨[5]⟩)]⟩] [[]]).no_of_nodes ≤ path.headI.id)
      ∧ ((nodeFind (Graph.mk [⟨0, [("x".toList, ⟨[5]⟩)]⟩] [[]])
            (path.getLastD default).id ("p".toList)).isSome
        ∨ ("p".toList : Name) = "c".toList ∨ ("p".toList : Name) = "f".toList
        ∨ (Graph.mk [⟨0, [("x".toList, ⟨[5]⟩)]⟩] [[]]).no_of_nodes
            ≤ (path.getLastD default).id))
    ∧ nodeFind ((Graph.mk [⟨0, [("x".toList, ⟨[5]⟩)]⟩] [[]]).calculate_node_importance []
        ("p".toList) ("c".toList) ("f".toList)) 0 ("x".toList)
      = nodeFind (Graph.mk [⟨0, [("x".toList, ⟨[5]⟩)]⟩] [[]]) 0 ("x".toList) := by
  refine ⟨by simp, ?_⟩
  exact (calculate_node_importance_frame (Graph.mk [⟨0, [("x".toList, ⟨[5]⟩)]⟩] [[]]) []
    ("p".toList) ("c".toList) ("f".toList) (by simp)).1 0 ("x".toList)
    (by decide) (by decide)

end BrainGraph

namespace BrainGraph

/-- The I5 hypothesis at node `i`: `pos_key` present with dim ≥ 3 and
non-negative integer coordinates within (rows, columns, slices); `weight_key`
present with dim ≥ 1. -/
def matrixOK (g : Graph) (rows columns slices : ℕ) (weight_key pos_key : Name) (i : ℕ) :
    Prop :=
  ∃ pos, mapFind (g.node i).properties pos_key = some pos ∧ 3 ≤ pos.dim
    ∧ (∃ x y z : ℕ, pos.get 0 = (x : ℝ) ∧ pos.get 1 = (y : ℝ) ∧ pos.get 2 = (z : ℝ)
        ∧ x < rows ∧ y < columns ∧ z < slices)
    ∧ ∃ wp, mapFind (g.node i).properties weight_key = some wp ∧ wp.dim ≠ 0

/-- The flat index the projection writes for node `i` (the C++ `double`
expression, truncated to `size_t`; `Nat.floor` on the spec's non-negative
integer domain). -/
noncomputable def flatIdx (g : Graph) (i : ℕ) (pos_key : Name) (columns slices : ℕ) : ℕ :=
  let pos := (mapFind (g.node i).properties pos_key).getD ⟨[]⟩
  ⌊pos.get 2 + pos.get 1 * (slices : ℝ) + pos.get 0 * (columns : ℝ) * (slices : ℝ)⌋₊

/-- The weight value the projection writes for node `i`. -/
def nodeWeightVal (g : Graph) (i : ℕ) (weight_key : Name) : ℝ :=
  ((mapFind (g.node i).properties weight_key).getD ⟨[]⟩).get 0

theorem flatIdx_lt (g : Graph) (rows columns slices : ℕ) (weight_key pos_key : Name)
    (i : ℕ) (h : matrixOK g rows columns slices weight_key pos_key i) :
    flatIdx g i pos_key columns slices < rows * columns * slices
    ∧ ∀ x y z : ℕ,
      ((mapFind (g.node i).properties pos_key).getD ⟨[]⟩).get 0 = (x : ℝ) →
      ((mapFind (g.node i).properties pos_key).getD ⟨[]⟩).get 1 = (y : ℝ) →
      ((mapFind (g.node i).properties pos_key).getD ⟨[]⟩).get 2 = (z : ℝ) →
      flatIdx g i pos_key columns slices = z + y * slices + x * columns * slices := by
  obtain ⟨pos, hpos, _, ⟨x, y, z, hx0, hy0, hz0, hx, hy, hz⟩, _⟩ := h
  have hcoord : ∀ x' y' z' : ℕ,
      ((mapFind (g.node i).properties pos_key).getD ⟨[]⟩).get 0 = (x' : ℝ) →
      ((mapFind (g.node i).properties pos_key).getD ⟨[]⟩).get 1 = (y' : ℝ) →
      ((mapFind (g.node i).properties pos_key).getD ⟨[]⟩).get 2 = (z' : ℝ) →
      flatIdx g i pos_key columns slices = z' + y' * slices + x' * columns * slices := by
    intro x' y' z' hx' hy' hz'
    simp only [flatIdx]
    rw [hx', hy', hz']
    rw [show ((z' : ℝ) + (y' : ℝ) * (slices : ℝ) + (x' : ℝ) * (columns : ℝ) * (slices : ℝ))
      = ((z' + y' * slices + x' * columns * slices : ℕ) : ℝ) by push_cast; ring]
    exact Nat.floor_natCast _
  have hbound : z + y * slices + x * columns * slices < rows * columns * slices := by
    have h1 : z + y * slices + x * columns * slices < (y + 1) * slices + x * columns * slices := by
      have hy1 : (y + 1) * slices = y * slices + slices := by ring
      have hzs : z < slices := hz
      linarith
    have h2 : (y + 1) * slices + x * columns * slices
        ≤ columns * slices + x * columns * slices := by
      have := mul_le_mul_right' (Nat.succ_le_of_lt hy) slices
      linarith
    have h3 : columns * slices + x * columns * slices = (x + 1) * (columns * slices) := by ring
    have h4 : (x + 1) * (columns * slices) ≤ rows * (columns * slices) :=
      mul_le_mul_right' (Nat.succ_le_of_lt hx) _
    have h5 : rows * (columns * slices) = rows * columns * slices := by ring
    linarith
  constructor
  · rw [hcoord x y z (by rw [hpos]; exact hx0) (by rw [hpos]; exact hy0)
      (by rw [hpos]; exact hz0)]
    exact hbound
  · exact hcoord

theorem asMatrixStep_ok (g : Graph) (rows columns slices : ℕ) (weight_key pos_key : Name)
    (i : ℕ) (weights : List ℝ) (h : matrixOK g rows columns slices weight_key pos_key i)
    (hlen : weights.length = rows * columns * slices) :
    asMatrixStep g columns slices weight_key pos_key weights i
      = Except.ok (weights.set (flatIdx g i pos_key columns slices)
          (nodeWeightVal g i weight_key)) := by
  obtain ⟨pos, hpos, hdim, hcoords, wp, hwp, hwpd⟩ := h
  have hidx : ⌊pos.get 2 + pos.get 1 * (slices : ℝ) + pos.get 0 * (columns : ℝ) * (slices : ℝ)⌋₊
      = flatIdx g i pos_key columns slices := by
    simp only [flatIdx, hpos]
    rfl
  have hwv : wp.get 0 = nodeWeightVal g i weight_key := by
    simp only [nodeWeightVal, hwp]
    rfl
  simp only [asMatrixStep, hpos, hwp]
  rw [if_neg (not_lt_of_le hdim), if_neg hwpd]
  rw [if_pos (by
    rw [hidx, hlen]
    exact (flatIdx_lt g rows columns slices weight_key pos_key i
      ⟨pos, hpos, hdim, hcoords, wp, hwp, hwpd⟩).1)]
  rw [hidx, hwv]

theorem foldlM_matrix_ok (g : Graph) (rows columns slices : ℕ) (weight_key pos_key : Name)
    (l : List ℕ) :
    ∀ weights : List ℝ, weights.length = rows * columns * slices →
      (∀ i ∈ l, matrixOK g rows columns slices weight_key pos_key i) →
      l.foldlM (asMatrixStep g columns slices weight_key pos_key) weights
        = Except.ok (l.foldl (fun w i => w.set (flatIdx g i pos_key columns slices)
            (nodeWeightVal g i weight_key)) weights) := by
  induction l with
  | nil => intro weights _ _; rfl
  | cons i l ih =>
    intro weights hlen hall
    rw [List.foldlM_cons,
      asMatrixStep_ok g rows columns slices weight_key pos_key i weights
        (hall i (List.mem_cons_self _ _)) hlen]
    show (l.foldlM (asMatrixStep g columns slices weight_key pos_key) _ : Except String _) = _
    rw [ih _ (by rw [List.length_set]; exact hlen)
      (fun q hq => hall q (List.mem_cons_of_mem _ hq))]
    rfl

theorem matrixFold_length (g : Graph) (pos_key weight_key : Name) (columns slices : ℕ)
    (l : List ℕ) (weights : List ℝ) :
    (l.foldl (fun w i => w.set (flatIdx g i pos_key columns slices)
        (nodeWeightVal g i weight_key)) weights).length = weights.length := by
  induction l generalizing weights with
  | nil => rfl
  | cons i l ih => rw [List.foldl_cons, ih, List.length_set]

theorem matrixFold_untouched (g : Graph) (pos_key weight_key : Name) (columns slices : ℕ)
    (l : List ℕ) (weights : List ℝ) (cidx : ℕ)
    (h : ∀ i ∈ l, flatIdx g i pos_key columns slices ≠ cidx) :
    (l.foldl (fun w i => w.set (flatIdx g i pos_key columns slices)
        (nodeWeightVal g i weight_key)) weights).getD cidx 0 = weights.getD cidx 0 := by
  induction l generalizing weights with
  | nil => rfl
  | cons i l ih =>
    rw [List.foldl_cons, ih _ (fun q hq => h q (List.mem_cons_of_mem _ hq)),
      getD_set_ne _ _ _ _ _ (Ne.symm (h i (List.mem_cons_self _ _)))]

end BrainGraph

namespace BrainGraph

theorem getD_replicate_zero (n i : ℕ) : (List.replicate n (0 : ℝ)).getD i 0 = 0 := by
  induction n generalizing i with
  | zero => simp [List.getD]
  | succ k ih =>
    cases i with
    | zero => rfl
    | succ j => simpa [List.replicate, List.getD] using ih j

theorem matrixFold_lastwriter (g : Graph) (pos_key weight_key : Name) (columns slices : ℕ)
    (l1 l2 : List ℕ) (j : ℕ) (weights : List ℝ)
    (h2 : ∀ i ∈ l2, flatIdx g i pos_key columns slices ≠ flatIdx g j pos_key columns slices)
    (hlt : flatIdx g j pos_key columns slices < weights.length) :
    ((l1 ++ j :: l2).foldl (fun w i => w.set (flatIdx g i pos_key columns slices)
        (nodeWeightVal g i weight_key)) weights).getD (flatIdx g j pos_key columns slices) 0
      = nodeWeightVal g j weight_key := by
  rw [List.foldl_append, List.foldl_cons]
  rw [matrixFold_untouched g pos_key weight_key columns slices l2 _ _ h2]
  exact getD_set_self _ _ _ _ (by rw [matrixFold_length]; exact hlt)

/-- Claim C3.  Under I5 (every node carries `pos_key` with dim ≥ 3 and
non-negative integer coordinates within (rows, columns, slices) and a
non-empty `weight_key`), `as_matrix` succeeds with a vector of length
`rows*columns*slices`; for every node `j` with position (x, y, z) whose flat
index is written by no later node, the entry at flat index
`z + y*slices + x*columns*slices` equals node `j`'s weight; and every cell
whose flat index is hit by no node remains 0. -/
theorem as_matrix_spec (g : Graph) (rows columns slices : ℕ) (weight_key pos_key : Name)
    (hall : ∀ i < g.no_of_nodes, matrixOK g rows columns slices weight_key pos_key i) :
    ∃ m, g.as_matrix rows columns slices weight_key pos_key = Except.ok m
      ∧ m.length = rows * columns * slices
      ∧ (∀ j, j < g.no_of_nodes → ∀ x y z : ℕ,
          ((mapFind (g.node j).properties pos_key).getD ⟨[]⟩).get 0 = (x : ℝ) →
          ((mapFind (g.node j).properties pos_key).getD ⟨[]⟩).get 1 = (y : ℝ) →
          ((mapFind (g.node j).properties pos_key).getD ⟨[]⟩).get 2 = (z : ℝ) →
          (∀ i, j < i → i < g.no_of_nodes →
            flatIdx g i pos_key columns slices ≠ flatIdx g j pos_key columns slices) →
          m.getD (z + y * slices + x * columns * slices) 0 = nodeWeightVal g j weight_key)
      ∧ (∀ cidx, cidx < rows * columns * slices →
          (∀ i, i < g.no_of_nodes → flatIdx g i pos_key columns slices ≠ cidx) →
          m.getD cidx 0 = 0) := by
  refine ⟨(List.range g.no_of_nodes).foldl (fun w i =>
      w.set (flatIdx g i pos_key columns slices) (nodeWeightVal g i weight_key))
      (List.replicate (rows * columns * slices) 0), ?_, ?_, ?_, ?_⟩
  · unfold Graph.as_matrix
    exact foldlM_matrix_ok g rows columns slices weight_key pos_key _ _
      (by rw [List.length_replicate])
      (fun i hi => hall i (List.mem_range.mp hi))
  · rw [matrixFold_length, List.length_replicate]
  · intro j hj x y z hx hy hz hlater
    have hflat := (flatIdx_lt g rows columns slices weight_key pos_key j (hall j hj)).2
      x y z hx hy hz
    rw [← hflat]
    have hsplit : List.range g.no_of_nodes
        = List.range j ++ j :: (List.range (g.no_of_nodes - (j + 1))).map ((j + 1) + ·) := by
      rw [show g.no_of_nodes = (j + 1) + (g.no_of_nodes - (j + 1)) by omega,
        List.range_add, List.range_succ]
      simp
    rw [hsplit]
    apply matrixFold_lastwriter
    · intro i hi
      simp only [List.mem_map, List.mem_range] at hi
      obtain ⟨t, ht, rfl⟩ := hi
      exact hlater (j + 1 + t) (by omega) (by omega)
    · rw [List.length_replicate]
      exact (flatIdx_lt g rows columns slices weight_key pos_key j (hall j hj)).1
  · intro cidx _ hnone
    rw [matrixFold_untouched g pos_key weight_key columns slices _ _ cidx
      (fun i hi => hnone i (List.mem_range.mp hi))]
    exact getD_replicate_zero _ _

/-- The concrete graph of the C3 witness: one node at position (0,0,0) with
weight 5. -/
def c3g : Graph := ⟨[⟨0, [("P".toList, ⟨[0, 0, 0]⟩), ("W".toList, ⟨[5]⟩)]⟩], [[]]⟩

/-- Witness for `as_matrix_spec` on a 1×1×1 projection of `c3g`. -/
theorem as_matrix_spec_witness :
    (∀ i < c3g.no_of_nodes, matrixOK c3g 1 1 1 ("W".toList) ("P".toList) i)
    ∧ ∃ m, c3g.as_matrix 1 1 1 ("W".toList) ("P".toList) = Except.ok m
        ∧ m.length = 1 * 1 * 1 := by
  have hall : ∀ i < c3g.no_of_nodes, matrixOK c3g 1 1 1 ("W".toList) ("P".toList) i := by
    intro i hi
    have hi0 : i = 0 := by
      have h1 : c3g.no_of_nodes = 1 := rfl
      omega
    subst hi0
    refine ⟨⟨[0, 0, 0]⟩, rfl, by norm_num [Property.dim],
      ⟨0, 0, 0, by norm_num [Property.get], by norm_num [Property.get],
        by norm_num [Property.get], by norm_num, by norm_num, by norm_num⟩,
      ⟨[5]⟩, rfl, by norm_num [Property.dim]⟩
  refine ⟨hall, ?_⟩
  obtain ⟨m, hm, hlen, _, _⟩ := as_matrix_spec c3g 1 1 1 ("W".toList) ("P".toList) hall
  exact ⟨m, hm, hlen⟩

end BrainGraph

namespace BrainGraph

/-- Claim C4 (behaviour of the code at the claim's failing input).  A file
whose header region ends (EOF) before any `# Data` line does NOT make
`load_binary` fail: `parse_header`'s loop terminates when `getline` clears
`good()` at EOF, returns the header parsed so far without raising, the width
checks pass, and `load_binary` returns a graph.  Here the complete `# Header`
section of an empty graph, truncated before `# Data`, loads as the empty
graph. -/
theorem load_binary_truncated_header_returns_graph :
    load_binary ⟨[("# Header".toList), ("node_count = 0".toList), ("edge_count = 0".toList),
        ("node_id_bytes = 8".toList), ("property_element_bytes = 8".toList),
        ("edge_weight_bytes = 8".toList)], []⟩
      = Except.ok (Graph.mk [] []) := by
  rfl

theorem readNodes_ids (schema : List (Name × ℕ)) (total : ℕ) :
    ∀ (k i : ℕ) (ws : List MWord),
      (readNodes schema total k i ws).1.length = k
      ∧ ∀ j < k, ((readNodes schema total k i ws).1.getD j ⟨0, []⟩).id = i + j := by
  intro k
  induction k with
  | zero =>
    intro i ws
    exact ⟨rfl, fun j hj => absurd hj (by omega)⟩
  | succ k ih =>
    intro i ws
    constructor
    · show ((⟨i, _⟩ : Node) :: (readNodes schema total k (i + 1) (ws.drop (1 + total))).1).length = k + 1
      rw [List.length_cons, (ih (i + 1) (ws.drop (1 + total))).1]
    · intro j hj
      cases j with
      | zero => rfl
      | succ j' =>
        show ((readNodes schema total k (i + 1) (ws.drop (1 + total))).1.getD j' ⟨0, []⟩).id
          = i + (j' + 1)
        rw [(ih (i + 1) (ws.drop (1 + total))).2 j' (by omega)]
        omega

/-- Claim C9.  Every graph a successful `load_binary` returns satisfies I1
unconditionally: the node at position `i` of `parse_data`'s node list has
`id = i` for EVERY payload — the stored per-node id field is read and
discarded, the node being constructed from the loop index. -/
theorem parse_data_node_ids (words : List MWord) (h : Header) (i : ℕ)
    (hi : i < h.node_count) :
    ((parse_data words h).1.getD i ⟨0, []⟩).id = i
    ∧ (parse_data words h).1.length = h.node_count := by
  unfold parse_data
  constructor
  · have := (readNodes_ids h.properties h.total_property_elements h.node_count 0 words).2 i hi
    simpa using this
  · exact (readNodes_ids h.properties h.total_property_elements h.node_count 0 words).1

/-- Witness for `parse_data_node_ids`: an empty payload parsed against a
header announcing two nodes (the failed reads leave zeroed buffers; the ids
still equal the indices). -/
theorem parse_data_node_ids_witness :
    (1 < (Header.mk 2 0 8 8 0 8 []).node_count)
    ∧ ((parse_data [] (Header.mk 2 0 8 8 0 8 [])).1.getD 1 ⟨0, []⟩).id = 1 := by
  exact ⟨by decide, (parse_data_node_ids [] (Header.mk 2 0 8 8 0 8 []) 1 (by decide)).1⟩

end BrainGraph

namespace BrainGraph

/-- Claim C5.  Once the header parses, `load_binary` fails with a schema
error exactly when the declared `node_id_bytes` differs from the id width, or
`property_element_bytes` differs from the element width, or
`edge_weight_bytes` strictly exceeds the weight width; when all three checks
pass it proceeds to the data section and returns the parsed graph. -/
theorem load_binary_schema_checks (f : BinFile) (h : Header)
    (hp : parse_header f.lines = Except.ok h) :
    ((load_binary f = Except.error errIdSize ∨ load_binary f = Except.error errPropSize
      ∨ load_binary f = Except.error errWeightSize)
      ↔ (h.node_id_bytes ≠ sizeof_id_type ∨ h.property_element_bytes ≠ sizeof_property_type
          ∨ sizeof_weight_type < h.edge_weight_bytes))
    ∧ ((h.node_id_bytes = sizeof_id_type ∧ h.property_element_bytes = sizeof_property_type
        ∧ h.edge_weight_bytes ≤ sizeof_weight_type) →
      load_binary f = Except.ok ⟨(parse_data f.words h).1, (parse_data f.words h).2⟩) := by
  have hload : load_binary f =
      (if h.node_id_bytes ≠ sizeof_id_type then Except.error errIdSize
       else if h.property_element_bytes ≠ sizeof_property_type then Except.error errPropSize
       else if sizeof_weight_type < h.edge_weight_bytes then Except.error errWeightSize
       else Except.ok ⟨(parse_data f.words h).1, (parse_data f.words h).2⟩) := by
    unfold load_binary
    rw [hp]
  rw [hload]
  by_cases h1 : h.node_id_bytes ≠ sizeof_id_type
  · rw [if_pos h1]
    exact ⟨⟨fun _ => Or.inl h1, fun _ => Or.inl rfl⟩, fun hall => absurd hall.1 h1⟩
  · rw [if_neg h1]
    push_neg at h1
    by_cases h2 : h.property_element_bytes ≠ sizeof_property_type
    · rw [if_pos h2]
      exact ⟨⟨fun _ => Or.inr (Or.inl h2), fun _ => Or.inr (Or.inl rfl)⟩,
        fun hall => absurd hall.2.1 h2⟩
    · rw [if_neg h2]
      push_neg at h2
      by_cases h3 : sizeof_weight_type < h.edge_weight_bytes
      · rw [if_pos h3]
        exact ⟨⟨fun _ => Or.inr (Or.inr h3), fun _ => Or.inr (Or.inr rfl)⟩,
          fun hall => absurd h3 (not_lt_of_le hall.2.2)⟩
      · rw [if_neg h3]
        refine ⟨⟨?_, ?_⟩, fun _ => rfl⟩
        · intro hor
          rcases hor with hx | hx | hx <;> simp at hx
        · intro hor
          rcases hor with hx | hx | hx
          · exact absurd h1 hx
          · exact absurd h2 hx
          · exact absurd hx h3

/-- The complete header of an empty graph, for the C5 witness. -/
def c5file : BinFile :=
  ⟨[("# Header".toList), ("node_count = 0".toList), ("edge_count = 0".toList),
    ("node_id_bytes = 8".toList), ("property_element_bytes = 8".toList),
    ("edge_weight_bytes = 8".toList), ("# Data".toList)], []⟩

/-- Witness for `load_binary_schema_checks` on `c5file`, whose parsed header
passes all three width checks. -/
theorem load_binary_schema_checks_witness :
    (parse_header c5file.lines = Except.ok (Header.mk 0 0 8 8 0 8 [])
      ∧ (Header.mk 0 0 8 8 0 8 []).node_id_bytes = sizeof_id_type
      ∧ (Header.mk 0 0 8 8 0 8 []).property_element_bytes = sizeof_property_type
      ∧ (Header.mk 0 0 8 8 0 8 []).edge_weight_bytes ≤ sizeof_weight_type)
    ∧ load_binary c5file
      = Except.ok ⟨(parse_data c5file.words (Header.mk 0 0 8 8 0 8 [])).1,
          (parse_data c5file.words (Header.mk 0 0 8 8 0 8 [])).2⟩ := by
  refine ⟨⟨rfl, by decide, by decide, by decide⟩, ?_⟩
  exact (load_binary_schema_checks c5file (Header.mk 0 0 8 8 0 8 []) rfl).2
    ⟨by decide, by decide, by decide⟩

end BrainGraph

namespace BrainGraph

/-!  Decimal rendering: digit facts, parse round trip, length bound. -/

theorem digitChar_facts : ∀ d, d < 10 →
    isDig (Nat.digitChar d) = true ∧ charVal (Nat.digitChar d) = d := by
  decide

theorem digitChar_notin : ∀ d, d < 10 →
    Nat.digitChar d ≠ ' ' ∧ Nat.digitChar d ≠ '\t' ∧ Nat.digitChar d ≠ '='
    ∧ Nat.digitChar d ≠ ',' ∧ Nat.digitChar d ≠ ':' ∧ Nat.digitChar d ≠ '('
    ∧ Nat.digitChar d ≠ ')' ∧ Nat.digitChar d ≠ '\n' := by
  decide

theorem parseDigits_append_one (xs : List Char) (c : Char) :
    parseDigits (xs ++ [c]) = (parseDigits xs) * 10 + charVal c := by
  unfold parseDigits
  rw [List.foldl_append]
  rfl

theorem decAux_digits : ∀ fuel n, n ≤ fuel →
    ∀ c ∈ decAux fuel n, ∃ d, d < 10 ∧ c = Nat.digitChar d := by
  intro fuel
  induction fuel with
  | zero =>
    intro n hn c hc
    interval_cases n
    simp [decAux] at hc
  | succ fuel ih =>
    intro n hn c hc
    cases n with
    | zero => simp [decAux] at hc
    | succ m =>
      rw [show decAux (fuel + 1) (m + 1)
          = decAux fuel ((m + 1) / 10) ++ [Nat.digitChar ((m + 1) % 10)] from rfl] at hc
      rcases List.mem_append.mp hc with hc | hc
      · exact ih ((m + 1) / 10) (by omega) c hc
      · rcases List.mem_singleton.mp hc with rfl
        exact ⟨(m + 1) % 10, by omega, rfl⟩

theorem parseDigits_decAux : ∀ fuel n, n ≤ fuel → parseDigits (decAux fuel n) = n := by
  intro fuel
  induction fuel with
  | zero =>
    intro n hn
    interval_cases n
    rfl
  | succ fuel ih =>
    intro n hn
    cases n with
    | zero => rfl
    | succ m =>
      rw [show decAux (fuel + 1) (m + 1)
        = decAux fuel ((m + 1) / 10) ++ [Nat.digitChar ((m + 1) % 10)] from rfl]
      rw [parseDigits_append_one, ih ((m + 1) / 10) (by omega),
        (digitChar_facts ((m + 1) % 10) (by omega)).2]
      omega

theorem decimalChars_digits (n : ℕ) :
    ∀ c ∈ decimalChars n, ∃ d, d < 10 ∧ c = Nat.digitChar d := by
  unfold decimalChars
  by_cases hn : n = 0
  · rw [if_pos hn]
    intro c hc
    rcases List.mem_singleton.mp hc with rfl
    exact ⟨0, by omega, rfl⟩
  · rw [if_neg hn]
    exact decAux_digits n n le_rfl

theorem parseDigits_decimalChars (n : ℕ) : parseDigits (decimalChars n) = n := by
  unfold decimalChars
  by_cases hn : n = 0
  · rw [if_pos hn, hn]
    rfl
  · rw [if_neg hn]
    exact parseDigits_decAux n n le_rfl

theorem decimalChars_ne_nil (n : ℕ) : decimalChars n ≠ [] := by
  unfold decimalChars
  by_cases hn : n = 0
  · rw [if_pos hn]
    simp
  · rw [if_neg hn]
    cases n with
    | zero => exact absurd rfl hn
    | succ m =>
      rw [show decAux (m + 1) (m + 1)
        = decAux m ((m + 1) / 10) ++ [Nat.digitChar ((m + 1) % 10)] from rfl]
      simp

theorem decAux_length : ∀ fuel n k, n ≤ fuel → n < 10 ^ k → (decAux fuel n).length ≤ k := by
  intro fuel
  induction fuel with
  | zero =>
    intro n k hn _
    interval_cases n
    simp [decAux]
  | succ fuel ih =>
    intro n k hn hk
    cases n with
    | zero => simp [decAux]
    | succ m =>
      cases k with
      | zero => simp at hk
      | succ k' =>
        rw [show decAux (fuel + 1) (m + 1)
          = decAux fuel ((m + 1) / 10) ++ [Nat.digitChar ((m + 1) % 10)] from rfl]
        rw [List.length_append, List.length_singleton]
        have hd : (m + 1) / 10 < 10 ^ k' := by
          rw [Nat.div_lt_iff_lt_mul (by norm_num)]
          calc m + 1 < 10 ^ (k' + 1) := hk
            _ = 10 ^ k' * 10 := by ring
        have := ih ((m + 1) / 10) k' (by omega) hd
        omega

theorem decimalChars_length (n k : ℕ) (hk : 1 ≤ k) (h : n < 10 ^ k) :
    (decimalChars n).length ≤ k := by
  unfold decimalChars
  by_cases hn : n = 0
  · rw [if_pos hn]
    simpa using hk
  · rw [if_neg hn]
    exact decAux_length n n k le_rfl h

/-!  trim and takeWhile helpers. -/

theorem dropWhile_append_of_all (p : Char → Bool) (pre s : List Char)
    (h : ∀ c ∈ pre, p c = true) : (pre ++ s).dropWhile p = s.dropWhile p := by
  induction pre with
  | nil => rfl
  | cons c t ih =>
    rw [List.cons_append, List.dropWhile_cons, if_pos (h c (List.mem_cons_self _ _))]
    exact ih (fun x hx => h x (List.mem_cons_of_mem _ hx))

theorem dropWhile_eq_self_of_head (p : Char → Bool) (s : List Char)
    (h : ∀ c, s.head? = some c → p c = false) : s.dropWhile p = s := by
  cases s with
  | nil => rfl
  | cons c t =>
    rw [List.dropWhile_cons, if_neg]
    rw [h c rfl]
    simp

theorem trimChars_sandwich (pre mid post cut : List Char)
    (hpre : ∀ c ∈ pre, c ∈ cut) (hpost : ∀ c ∈ post, c ∈ cut)
    (hmidh : ∀ c, mid.head? = some c → c ∉ cut)
    (hmidl : ∀ c, mid.getLast? = some c → c ∉ cut) :
    trimChars (pre ++ mid ++ post) cut = mid := by
  unfold trimChars
  by_cases hmid : mid = []
  · subst hmid
    rw [List.append_nil]
    rw [show (pre ++ post : List Char).dropWhile (fun c => decide (c ∈ cut)) = [] from ?_]
    · rfl
    · rw [show (pre ++ post : List Char) = (pre ++ post) ++ ([] : List Char) by simp]
      rw [dropWhile_append_of_all _ _ _ ?_]
      · rfl
      · intro c hc
        rcases List.mem_append.mp hc with hc | hc
        · simp [hpre c hc]
        · simp [hpost c hc]
  · rw [List.append_assoc]
    rw [dropWhile_append_of_all _ pre _ (fun c hc => by simp [hpre c hc])]
    rw [dropWhile_eq_self_of_head _ (mid ++ post) ?_]
    · rw [List.reverse_append]
      rw [dropWhile_append_of_all _ post.reverse _ (fun c hc => by
        simp [hpost c (List.mem_reverse.mp hc)])]
      rw [dropWhile_eq_self_of_head _ mid.reverse (fun c hc => by
        rw [List.head?_reverse] at hc
        simp [hmidl c hc])]
      exact List.reverse_reverse mid
    · intro c hc
      have hh : mid.head? = some c := by
        cases mid with
        | nil => exact absurd rfl hmid
        | cons x t => simpa using hc
      simp [hmidh c hh]

theorem takeWhile_all (p : Char → Bool) (l : List Char) (h : ∀ c ∈ l, p c = true) :
    l.takeWhile p = l := by
  induction l with
  | nil => rfl
  | cons c t ih =>
    rw [List.takeWhile_cons, if_pos (h c (List.mem_cons_self _ _))]
    rw [ih (fun x hx => h x (List.mem_cons_of_mem _ hx))]

theorem stoulChars_digits (ds : List Char) (hne : ds ≠ [])
    (hall : ∀ c ∈ ds, ∃ d, d < 10 ∧ c = Nat.digitChar d) :
    stoulChars ds = Except.ok (parseDigits ds) := by
  unfold stoulChars
  rw [takeWhile_all _ _ (fun c hc => by
    obtain ⟨d, hd, rfl⟩ := hall c hc
    exact (digitChar_facts d hd).1)]
  rw [if_neg (by simpa using hne)]

end BrainGraph

namespace BrainGraph

/-- The reservation width written by `save_binary` is exactly the claim's
`ceil(8*sizeof(id_type)/log2(10))`. -/
theorem reserveWidth_eq_ceil : reserveWidth = ⌈(8 * (8 : ℝ)) / Real.logb 2 10⌉₊ := by
  have hlog2 : (0 : ℝ) < Real.log 2 := Real.log_pos (by norm_num)
  have hlog10 : (0 : ℝ) < Real.log 10 := Real.log_pos (by norm_num)
  have hx : (8 * (8 : ℝ)) / Real.logb 2 10 = 64 * Real.log 2 / Real.log 10 := by
    rw [show Real.logb 2 10 = Real.log 10 / Real.log 2 from rfl]
    rw [div_div_eq_mul_div]
    norm_num
  have h19 : Real.log (10 ^ (19 : ℕ)) < Real.log (2 ^ (64 : ℕ)) :=
    Real.log_lt_log (by positivity) (by norm_num)
  have h20 : Real.log (2 ^ (64 : ℕ)) ≤ Real.log (10 ^ (20 : ℕ)) :=
    (Real.log_le_log_iff (by positivity) (by positivity)).mpr (by norm_num)
  rw [Real.log_pow, Real.log_pow] at h19
  rw [Real.log_pow, Real.log_pow] at h20
  push_cast at h19 h20
  symm
  rw [hx, show reserveWidth = 20 from rfl]
  rw [Nat.ceil_eq_iff (by norm_num : (20 : ℕ) ≠ 0)]
  constructor
  · rw [show ((20 : ℕ) - 1 : ℕ) = (19 : ℕ) from rfl]
    rw [lt_div_iff hlog10]
    push_cast
    linarith
  · rw [div_le_iff hlog10]
    push_cast
    linarith

theorem edgeTally_eq_sum (g : Graph) :
    edgeTally g = ((List.range g.no_of_nodes).map (fun i => (g.edges i).length)).sum := by
  unfold edgeTally edgeRecordsOf
  generalize List.range g.no_of_nodes = l
  induction l with
  | nil => rfl
  | cons i t ih => simp [List.flatMap_cons, ih]

theorem edgeWordsOf_length (g : Graph) : (edgeWordsOf g).length = 3 * edgeTally g := by
  unfold edgeWordsOf edgeTally
  generalize edgeRecordsOf g = l
  induction l with
  | nil => rfl
  | cons r t ih =>
    rw [List.flatMap_cons, List.length_append, ih, List.length_cons]
    simp only [List.length_cons, List.length_nil]
    ring

/-- Claim C6.  After `save_binary`, the decimal value back-patched into the
reserved `edge_count` field equals the exact number of packed edge records in
the data region — the sum over all nodes of their outgoing-edge list lengths
(each record contributing three payload words) — and the reserved field,
`ceil(8*sizeof(id_type)/log2 10) = 20` ASCII characters, is wide enough to
hold it for any `size_t` tally (< 2^64): the digits fit and the padded field
trims and re-parses to the same value. -/
theorem save_binary_edge_count (g : Graph) (hE : edgeTally g < 2 ^ 64) :
    edgeTally g = ((List.range g.no_of_nodes).map (fun i => (g.edges i).length)).sum
    ∧ (edgeWordsOf g).length = 3 * edgeTally g
    ∧ (save_binary g).lines.getD 2 []
        = ("edge_count = ".toList) ++ decimalChars (edgeTally g)
          ++ List.replicate (reserveWidth - (decimalChars (edgeTally g)).length) ' '
    ∧ parseDigits (decimalChars (edgeTally g)) = edgeTally g
    ∧ stoulChars (trimChars (decimalChars (edgeTally g)
        ++ List.replicate (reserveWidth - (decimalChars (edgeTally g)).length) ' ') wsCut)
        = Except.ok (edgeTally g)
    ∧ (decimalChars (edgeTally g)).length ≤ reserveWidth
    ∧ reserveWidth = ⌈(8 * (8 : ℝ)) / Real.logb 2 10⌉₊ := by
  have hlen : (decimalChars (edgeTally g)).length ≤ reserveWidth := by
    apply decimalChars_length _ 20 (by norm_num)
    calc edgeTally g < 2 ^ 64 := hE
      _ < 10 ^ 20 := by norm_num
  have htrim : trimChars (decimalChars (edgeTally g)
      ++ List.replicate (reserveWidth - (decimalChars (edgeTally g)).length) ' ') wsCut
      = decimalChars (edgeTally g) := by
    rw [show (decimalChars (edgeTally g)
        ++ List.replicate (reserveWidth - (decimalChars (edgeTally g)).length) ' ')
      = [] ++ decimalChars (edgeTally g)
        ++ List.replicate (reserveWidth - (decimalChars (edgeTally g)).length) ' ' by simp]
    apply trimChars_sandwich
    · intro c hc
      simp at hc
    · intro c hc
      rw [List.eq_of_mem_replicate hc]
      simp [wsCut]
    · intro c hc
      have hmem : c ∈ decimalChars (edgeTally g) := by
        cases hd : decimalChars (edgeTally g) with
        | nil => rw [hd] at hc; simp at hc
        | cons x t =>
          rw [hd] at hc
          simp only [List.head?_cons, Option.some_inj] at hc
          subst hc
          exact List.mem_cons_self _ _
      obtain ⟨d, hd10, rfl⟩ := decimalChars_digits _ c hmem
      have hn := digitChar_notin d hd10
      simp [wsCut, hn.1, hn.2.1]
    · intro c hc
      have hmem : c ∈ decimalChars (edgeTally g) := by
        obtain ⟨hne, hcc⟩ := List.mem_getLast?_eq_getLast (by rw [hc]; rfl)
        rw [hcc]
        exact List.getLast_mem hne
      obtain ⟨d, hd10, rfl⟩ := decimalChars_digits _ c hmem
      have hn := digitChar_notin d hd10
      simp [wsCut, hn.1, hn.2.1]
  refine ⟨edgeTally_eq_sum g, edgeWordsOf_length g, rfl, parseDigits_decimalChars _, ?_,
    hlen, reserveWidth_eq_ceil⟩
  rw [htrim, stoulChars_digits _ (decimalChars_ne_nil _) (decimalChars_digits _),
    parseDigits_decimalChars]

/-- The one-node, two-edge graph of the C6 witness. -/
def c6g : Graph := ⟨[⟨0, []⟩], [[⟨0, 1⟩, ⟨0, 2⟩]]⟩

/-- Witness for `save_binary_edge_count` at `c6g` (tally 2). -/
theorem save_binary_edge_count_witness :
    edgeTally c6g < 2 ^ 64
    ∧ edgeTally c6g
        = ((List.range c6g.no_of_nodes).map (fun i => (c6g.edges i).length)).sum := by
  exact ⟨by decide, (save_binary_edge_count c6g (by decide)).1⟩

end BrainGraph

namespace BrainGraph

/-!  splitChar and index-search lemmas for the header round trip. -/

theorem splitChar_of_not_mem (s : List Char) (d : Char) (h : d ∉ s) :
    splitChar s d = [s] := by
  induction s with
  | nil => rfl
  | cons c t ih =>
    have hcd : ¬(c = d) := fun hc => h (hc ▸ List.mem_cons_self _ _)
    rw [show splitChar (c :: t) d
      = if c = d then [] :: splitChar t d
        else (c :: (splitChar t d).headI) :: (splitChar t d).tail from rfl]
    rw [if_neg hcd, ih (fun hm => h (List.mem_cons_of_mem _ hm))]
    rfl

theorem splitChar_append (a b : List Char) (d : Char) (h : d ∉ a) :
    splitChar (a ++ d :: b) d = a :: splitChar b d := by
  induction a with
  | nil =>
    rw [List.nil_append,
      show splitChar (d :: b) d
        = if d = d then [] :: splitChar b d
          else (d :: (splitChar b d).headI) :: (splitChar b d).tail from rfl,
      if_pos rfl]
  | cons c t ih =>
    have hcd : ¬(c = d) := fun hc => h (hc ▸ List.mem_cons_self _ _)
    rw [List.cons_append,
      show splitChar (c :: (t ++ d :: b)) d
        = if c = d then [] :: splitChar (t ++ d :: b) d
          else (c :: (splitChar (t ++ d :: b) d).headI) :: (splitChar (t ++ d :: b) d).tail
        from rfl,
      if_neg hcd, ih (fun hm => h (List.mem_cons_of_mem _ hm))]
    rfl

theorem findIdx?_append_first (p : Char → Bool) (pre rest : List Char) (c0 : Char)
    (hpre : ∀ c ∈ pre, p c = false) (hc0 : p c0 = true) :
    ∀ i : ℕ, List.findIdx? p (pre ++ c0 :: rest) i = some (i + pre.length) := by
  induction pre with
  | nil =>
    intro i
    rw [List.nil_append,
      show List.findIdx? p (c0 :: rest) i
        = if p c0 then some i else List.findIdx? p rest (i + 1) from rfl,
      if_pos hc0]
    simp
  | cons c t ih =>
    intro i
    rw [List.cons_append,
      show List.findIdx? p (c :: (t ++ c0 :: rest)) i
        = if p c then some i else List.findIdx? p (t ++ c0 :: rest) (i + 1) from rfl,
      if_neg (by rw [hpre c (List.mem_cons_self _ _)]; simp),
      ih (fun x hx => hpre x (List.mem_cons_of_mem _ hx)) (i + 1)]
    simp only [List.length_cons]
    congr 1
    omega

theorem firstIdxOf_shape (pre rest : List Char) (hpre : '(' ∉ pre) :
    firstIdxOf (pre ++ '(' :: rest) '(' = some pre.length := by
  unfold firstIdxOf
  rw [findIdx?_append_first _ pre rest '(' (fun c hc => by
      simp only [decide_eq_false_iff_not]
      exact fun hcc => hpre (hcc ▸ hc)) (by simp) 0]
  simp

theorem lastIdxOf_shape (x : List Char) :
    lastIdxOf (x ++ [')']) ')' = some x.length := by
  unfold lastIdxOf
  rw [show (x ++ [')']).reverse = ')' :: x.reverse by simp]
  rw [show List.findIdx? (fun c => decide (c = ')')) (')' :: x.reverse) 0
    = if decide (')' = ')') then some 0
      else List.findIdx? (fun c => decide (c = ')')) x.reverse 1 from rfl]
  rw [if_pos (by simp)]
  simp

theorem extractInterior_shape (pre inner : List Char) (hpre : '(' ∉ pre) :
    extractInterior (pre ++ '(' :: (inner ++ [')'])) = inner := by
  unfold extractInterior
  rw [show pre ++ '(' :: (inner ++ [')']) = pre ++ '(' :: (inner ++ [')']) from rfl]
  rw [firstIdxOf_shape pre (inner ++ [')']) hpre]
  rw [show pre ++ '(' :: (inner ++ [')']) = (pre ++ '(' :: inner) ++ [')'] by simp]
  rw [lastIdxOf_shape (pre ++ '(' :: inner)]
  simp only []
  rw [show (pre ++ '(' :: inner) ++ [')'] = (pre ++ ['(']) ++ (inner ++ [')']) by simp]
  rw [show pre.length + 1 = (pre ++ ['(']).length by simp]
  rw [List.drop_left (pre ++ ['(']) (inner ++ [')'])]
  rw [show (pre ++ '(' :: inner).length - (pre ++ ['(']).length = inner.length by
    simp; omega]
  exact List.take_left inner [')']

/-!  Parsing one `key = value` line back. -/

theorem readEntry_eq_of_split (line A B : List Char)
    (h : splitChar line '=' = [A, B]) :
    readEntry line = (match stoulChars (trimChars B wsCut) with
      | Except.error e => Except.error e
      | Except.ok v => Except.ok (trimChars A wsCut, v)) := by
  unfold readEntry
  rw [h]
  rfl

theorem readEntry_mk (key val pads : List Char)
    (hkeq : '=' ∉ key)
    (hkh : ∀ c, key.head? = some c → c ∉ wsCut)
    (hkl : ∀ c, key.getLast? = some c → c ∉ wsCut)
    (hval : ∀ c ∈ val, ∃ d, d < 10 ∧ c = Nat.digitChar d) (hvne : val ≠ [])
    (hpads : ∀ c ∈ pads, c ∈ wsCut) :
    readEntry (key ++ ' ' :: '=' :: ' ' :: (val ++ pads))
      = Except.ok (key, parseDigits val) := by
  have hsplit : splitChar (key ++ ' ' :: '=' :: ' ' :: (val ++ pads)) '='
      = [key ++ [' '], ' ' :: (val ++ pads)] := by
    rw [show key ++ ' ' :: '=' :: ' ' :: (val ++ pads)
      = (key ++ [' ']) ++ '=' :: (' ' :: (val ++ pads)) by simp]
    rw [splitChar_append _ _ _ (by
      intro hm
      rcases List.mem_append.mp hm with hm | hm
      · exact hkeq hm
      · simp at hm)]
    rw [splitChar_of_not_mem _ _ (by
      intro hm
      simp only [List.mem_cons, List.mem_append] at hm
      rcases hm with hm | hm | hm
      · simp at hm
      · obtain ⟨d, hd, hdc⟩ := hval _ hm
        exact (digitChar_notin d hd).2.2.1 hdc.symm
      · have := hpads _ hm
        simp [wsCut] at this)]
  rw [readEntry_eq_of_split _ _ _ hsplit]
  have hB : trimChars (' ' :: (val ++ pads)) wsCut = val := by
    rw [show (' ' :: (val ++ pads) : List Char) = [' '] ++ val ++ pads by simp]
    apply trimChars_sandwich
    · intro c hc
      rcases List.mem_singleton.mp hc with rfl
      simp [wsCut]
    · exact hpads
    · intro c hc
      have hcm : c ∈ val := by
        cases hv : val with
        | nil => rw [hv] at hc; simp at hc
        | cons x t =>
          rw [hv] at hc
          simp only [List.head?_cons, Option.some_inj] at hc
          subst hc
          exact List.mem_cons_self _ _
      obtain ⟨d, hd, rfl⟩ := hval _ hcm
      have hn := digitChar_notin d hd
      simp [wsCut, hn.1, hn.2.1]
    · intro c hc
      have hcm : c ∈ val := by
        obtain ⟨hne, hcc⟩ := List.mem_getLast?_eq_getLast (by rw [hc]; rfl)
        rw [hcc]
        exact List.getLast_mem hne
      obtain ⟨d, hd, rfl⟩ := hval _ hcm
      have hn := digitChar_notin d hd
      simp [wsCut, hn.1, hn.2.1]
  have hA : trimChars (key ++ [' ']) wsCut = key := by
    rw [show (key ++ [' '] : List Char) = [] ++ key ++ [' '] by simp]
    apply trimChars_sandwich
    · intro c hc
      simp at hc
    · intro c hc
      rcases List.mem_singleton.mp hc with rfl
      simp [wsCut]
    · exact hkh
    · exact hkl
  rw [hB, hA, stoulChars_digits val hvne hval]

theorem readEntries_cons_ok (k : ℕ) (line : List Char) (rest : List (List Char))
    (acc : List (Name × ℕ)) (key : Name) (v : ℕ)
    (h : readEntry line = Except.ok (key, v)) :
    readEntries (k + 1) (line :: rest) acc = readEntries k rest (mapSet acc key v) := by
  rw [show readEntries (k + 1) (line :: rest) acc
    = (match readEntry ((line :: rest).headD []) with
       | Except.error e => Except.error e
       | Except.ok kv => readEntries k (line :: rest).tail (mapSet acc kv.1 kv.2)) from rfl]
  rw [show (line :: rest).headD [] = line from rfl, h]
  rfl

end BrainGraph

namespace BrainGraph

theorem keyConds (key : List Char) (h : ∀ c ∈ key, c ∉ wsCut) :
    (∀ c, key.head? = some c → c ∉ wsCut) ∧ (∀ c, key.getLast? = some c → c ∉ wsCut) := by
  constructor
  · intro c hc
    exact h c (List.mem_of_mem_head? hc)
  · intro c hc
    obtain ⟨hne, hcc⟩ := List.mem_getLast?_eq_getLast (by rw [hc]; rfl)
    exact hcc ▸ h _ (List.getLast_mem hne)

theorem readEntry_ncLine (n : ℕ) :
    readEntry (("node_count = ".toList) ++ decimalChars n)
      = Except.ok ("node_count".toList, n) := by
  rw [show ("node_count = ".toList) ++ decimalChars n
      = "node_count".toList ++ ' ' :: '=' :: ' ' :: (decimalChars n ++ []) by simp]
  rw [readEntry_mk _ _ _ (by decide) (keyConds _ (by decide)).1 (keyConds _ (by decide)).2
    (decimalChars_digits n) (decimalChars_ne_nil n) (by simp), parseDigits_decimalChars]

theorem readEntry_ecLine (g : Graph) :
    readEntry (edgeCountLineOf g) = Except.ok ("edge_count".toList, edgeTally g) := by
  rw [show edgeCountLineOf g
      = "edge_count".toList ++ ' ' :: '=' :: ' ' :: (decimalChars (edgeTally g)
          ++ List.replicate (reserveWidth - (decimalChars (edgeTally g)).length) ' ') by
    unfold edgeCountLineOf
    simp]
  rw [readEntry_mk _ _ _ (by decide) (keyConds _ (by decide)).1 (keyConds _ (by decide)).2
    (decimalChars_digits _) (decimalChars_ne_nil _) (by
      intro c hc
      rw [List.eq_of_mem_replicate hc]
      simp [wsCut]), parseDigits_decimalChars]

theorem readEntry_idbLine :
    readEntry (("node_id_bytes = ".toList) ++ decimalChars sizeof_id_type)
      = Except.ok ("node_id_bytes".toList, 8) := by
  rfl

theorem readEntry_pebLine :
    readEntry (("property_element_bytes = ".toList) ++ decimalChars sizeof_property_type)
      = Except.ok ("property_element_bytes".toList, 8) := by
  rfl

theorem readEntry_ewbLine :
    readEntry (("edge_weight_bytes = ".toList) ++ decimalChars sizeof_weight_type)
      = Except.ok ("edge_weight_bytes".toList, 8) := by
  rfl

theorem readEntries_save (g : Graph) (rest : List (List Char)) :
    readEntries 5 ((("node_count = ".toList) ++ decimalChars g.no_of_nodes)
      :: edgeCountLineOf g
      :: (("node_id_bytes = ".toList) ++ decimalChars sizeof_id_type)
      :: (("property_element_bytes = ".toList) ++ decimalChars sizeof_property_type)
      :: (("edge_weight_bytes = ".toList) ++ decimalChars sizeof_weight_type)
      :: rest) []
      = Except.ok ([("node_count".toList, g.no_of_nodes), ("edge_count".toList, edgeTally g),
          ("node_id_bytes".toList, 8), ("property_element_bytes".toList, 8),
          ("edge_weight_bytes".toList, 8)], rest) := by
  rw [readEntries_cons_ok _ _ _ _ _ _ (readEntry_ncLine g.no_of_nodes),
    readEntries_cons_ok _ _ _ _ _ _ (readEntry_ecLine g),
    readEntries_cons_ok _ _ _ _ _ _ readEntry_idbLine,
    readEntries_cons_ok _ _ _ _ _ _ readEntry_pebLine,
    readEntries_cons_ok _ _ _ _ _ _ readEntry_ewbLine]
  rfl

theorem applyEntries_save (g : Graph) :
    applyEntries emptyHeader
      [("node_count".toList, g.no_of_nodes), ("edge_count".toList, edgeTally g),
        ("node_id_bytes".toList, 8), ("property_element_bytes".toList, 8),
        ("edge_weight_bytes".toList, 8)]
      = ⟨g.no_of_nodes, edgeTally g, 8, 8, 0, 8, []⟩ := by
  rfl

end BrainGraph

namespace BrainGraph

/-!  The properties line round trip. -/

/-- The `name:dim` body of a schema chunk. -/
def bodyOf (s : Name × ℕ) : List Char := s.1 ++ ':' :: decimalChars s.2

/-- The closing parenthesis a token carries unless it is the last one. -/
def closeTag (rest : List (Name × ℕ)) : List Char := if rest.isEmpty then [] else [')']

/-- The comma-split tokens after the first. -/
def innerToks : List (Name × ℕ) → List (List Char)
  | [] => []
  | s :: more => ('(' :: (bodyOf s ++ closeTag more)) :: innerToks more

theorem validPropName_all (n : Name) (h : validPropName n = true) :
    ∀ c ∈ n, c ≠ ',' ∧ c ≠ ':' ∧ c ≠ '\n' := by
  intro c hc
  unfold validPropName at h
  simp only [Bool.and_eq_true, List.all_eq_true] at h
  have hx := h.1.1 c hc
  simp only [Bool.and_eq_true, decide_eq_true_eq] at hx
  exact ⟨hx.1.1, hx.1.2, hx.2⟩

theorem validPropName_head (n : Name) (h : validPropName n = true) :
    ∀ c, n.head? = some c → ¬(c = ' ' ∨ c = '(') := by
  intro c hc
  unfold validPropName at h
  cases n with
  | nil => simp at hc
  | cons x t =>
    simp only [List.head?_cons, Option.some_inj] at hc
    subst hc
    simp only [Bool.and_eq_true] at h
    have hx := h.1.2
    simp only [Bool.and_eq_true, decide_eq_true_eq] at hx
    rintro (rfl | rfl)
    · exact hx.1 rfl
    · exact hx.2 rfl

theorem validPropName_last (n : Name) (h : validPropName n = true) :
    ∀ c, n.getLast? = some c → ¬(c = ' ' ∨ c = '(') := by
  intro c hc
  unfold validPropName at h
  simp only [Bool.and_eq_true] at h
  have h2 := h.2
  rw [hc] at h2
  simp only [Bool.and_eq_true, decide_eq_true_eq] at h2
  rintro (rfl | rfl)
  · exact h2.1 rfl
  · exact h2.2 rfl

theorem comma_not_in_body (s : Name × ℕ) (hv : validPropName s.1 = true) :
    ',' ∉ bodyOf s := by
  intro hm
  unfold bodyOf at hm
  rcases List.mem_append.mp hm with hm | hm
  · exact (validPropName_all s.1 hv ',' hm).1 rfl
  · rcases List.mem_cons.mp hm with h1 | h1
    · simp at h1
    · obtain ⟨d, hd, hc⟩ := decimalChars_digits s.2 ',' h1
      exact (digitChar_notin d hd).2.2.2.1 hc.symm

end BrainGraph

namespace BrainGraph

theorem joinChunks_shape (s0 : Name × ℕ) (rest : List (Name × ℕ)) :
    joinChunks (s0 :: rest)
      = '(' :: ((bodyOf s0 ++ rest.flatMap (fun s => ')' :: ',' :: '(' :: bodyOf s)) ++ [')']) := by
  induction rest generalizing s0 with
  | nil => simp [joinChunks, chunkOf, bodyOf]
  | cons s1 more ih =>
    have hstep : joinChunks (s0 :: s1 :: more) = chunkOf s0 ++ ',' :: joinChunks (s1 :: more) := by
      simp [joinChunks, List.flatMap_cons]
    rw [hstep, ih]
    simp [chunkOf, bodyOf, List.flatMap_cons]

theorem split_interior : ∀ (rest : List (Name × ℕ)) (body0 : List Char),
    ',' ∉ body0 →
    (∀ s ∈ rest, ',' ∉ bodyOf s) →
    splitChar (body0 ++ rest.flatMap (fun s => ')' :: ',' :: '(' :: bodyOf s)) ','
      = (body0 ++ closeTag rest) :: innerToks rest := by
  intro rest
  induction rest with
  | nil =>
    intro body0 h0 _
    rw [List.flatMap_nil, List.append_nil, splitChar_of_not_mem _ _ h0]
    simp [closeTag, innerToks]
  | cons s1 more ih =>
    intro body0 h0 hall
    have hreshape : body0 ++ (s1 :: more).flatMap (fun s => ')' :: ',' :: '(' :: bodyOf s)
        = (body0 ++ [')']) ++ ',' :: (('(' :: bodyOf s1)
            ++ more.flatMap (fun s => ')' :: ',' :: '(' :: bodyOf s)) := by
      simp [List.flatMap_cons]
    rw [hreshape, splitChar_append _ _ _ (by
      intro hm
      rcases List.mem_append.mp hm with hm | hm
      · exact h0 hm
      · simp at hm)]
    rw [ih ('(' :: bodyOf s1) (by
        intro hm
        rcases List.mem_cons.mp hm with h1 | h1
        · simp at h1
        · exact hall s1 (List.mem_cons_self _ _) h1)
      (fun s hs => hall s (List.mem_cons_of_mem _ hs))]
    simp [closeTag, innerToks]

theorem parsePropToken_eq_of_split (tok A B : List Char)
    (h : splitChar tok ':' = [A, B]) :
    parsePropToken tok = (match stoulChars (trimChars B [' ', ')']) with
      | Except.error e => Except.error e
      | Except.ok d => Except.ok (trimChars A [' ', '('], d)) := by
  unfold parsePropToken
  rw [h]
  rfl

theorem parsePropToken_mk (n : Name) (d : ℕ) (optL optR : List Char)
    (hL : optL = [] ∨ optL = ['(']) (hR : optR = [] ∨ optR = [')'])
    (hv : validPropName n = true) :
    parsePropToken (optL ++ (n ++ ':' :: (decimalChars d ++ optR))) = Except.ok (n, d) := by
  have hsplit : splitChar (optL ++ (n ++ ':' :: (decimalChars d ++ optR))) ':'
      = [optL ++ n, decimalChars d ++ optR] := by
    rw [show optL ++ (n ++ ':' :: (decimalChars d ++ optR))
      = (optL ++ n) ++ ':' :: (decimalChars d ++ optR) by simp]
    rw [splitChar_append _ _ _ (by
      intro hm
      rcases List.mem_append.mp hm with hm | hm
      · rcases hL with rfl | rfl
        · simp at hm
        · simp at hm
      · exact (validPropName_all n hv ':' hm).2.1 rfl)]
    rw [splitChar_of_not_mem _ _ (by
      intro hm
      rcases List.mem_append.mp hm with hm | hm
      · obtain ⟨dd, hdd, hc⟩ := decimalChars_digits d ':' hm
        exact (digitChar_notin dd hdd).2.2.2.2.1 hc.symm
      · rcases hR with rfl | rfl
        · simp at hm
        · simp at hm)]
  rw [parsePropToken_eq_of_split _ _ _ hsplit]
  have hB : trimChars (decimalChars d ++ optR) [' ', ')'] = decimalChars d := by
    rw [show decimalChars d ++ optR = [] ++ decimalChars d ++ optR by simp]
    apply trimChars_sandwich
    · intro c hc
      simp at hc
    · intro c hc
      rcases hR with rfl | rfl
      · simp at hc
      · rcases List.mem_singleton.mp hc with rfl
        simp
    · intro c hc
      have hcm : c ∈ decimalChars d := List.mem_of_mem_head? hc
      obtain ⟨dd, hdd, rfl⟩ := decimalChars_digits d c hcm
      have hn := digitChar_notin dd hdd
      simp [hn.1, hn.2.2.2.2.2.2.1]
    · intro c hc
      have hcm : c ∈ decimalChars d := by
        obtain ⟨hne, hcc⟩ := List.mem_getLast?_eq_getLast (by rw [hc]; rfl)
        exact hcc ▸ List.getLast_mem hne
      obtain ⟨dd, hdd, rfl⟩ := decimalChars_digits d c hcm
      have hn := digitChar_notin dd hdd
      simp [hn.1, hn.2.2.2.2.2.2.1]
  have hA : trimChars (optL ++ n) [' ', '('] = n := by
    rw [show optL ++ n = optL ++ n ++ [] by simp]
    apply trimChars_sandwich
    · intro c hc
      rcases hL with rfl | rfl
      · simp at hc
      · rcases List.mem_singleton.mp hc with rfl
        simp
    · intro c hc
      simp at hc
    · intro c hc
      have := validPropName_head n hv c hc
      simp only [List.mem_cons, List.mem_singleton]
      intro hor
      rcases hor with hor | hor
      · exact this (Or.inl hor)
      · rcases hor with hor | hor
        · exact this (Or.inr hor)
        · simp at hor
    · intro c hc
      have := validPropName_last n hv c hc
      simp only [List.mem_cons, List.mem_singleton]
      intro hor
      rcases hor with hor | hor
      · exact this (Or.inl hor)
      · rcases hor with hor | hor
        · exact this (Or.inr hor)
        · simp at hor
  rw [hB, stoulChars_digits _ (decimalChars_ne_nil _) (decimalChars_digits _), hA,
    parseDigits_decimalChars]

theorem exbind_ok {α β : Type} (a : α) (k : α → Except String β) :
    (Except.ok a >>= k) = k a := rfl

theorem mapM_innerToks : ∀ (rest : List (Name × ℕ)),
    (∀ s ∈ rest, validPropName s.1 = true) →
    (innerToks rest).mapM parsePropToken = Except.ok rest := by
  intro rest
  induction rest with
  | nil =>
    intro _
    rfl
  | cons s more ih =>
    intro hall
    have htok : parsePropToken ('(' :: (bodyOf s ++ closeTag more)) = Except.ok (s.1, s.2) := by
      rw [show ('(' :: (bodyOf s ++ closeTag more) : List Char)
        = ['('] ++ (s.1 ++ ':' :: (decimalChars s.2 ++ closeTag more)) by simp [bodyOf]]
      exact parsePropToken_mk s.1 s.2 ['('] (closeTag more) (Or.inr rfl)
        (by unfold closeTag; split_ifs <;> simp) (hall s (List.mem_cons_self _ _))
    rw [show innerToks (s :: more) = ('(' :: (bodyOf s ++ closeTag more)) :: innerToks more
      from rfl]
    rw [List.mapM_cons, htok, exbind_ok, ih (fun q hq => hall q (List.mem_cons_of_mem _ hq)),
      exbind_ok]
    rfl

theorem parsePropsLine_save (h : Header) (s0 : Name × ℕ) (rest : List (Name × ℕ))
    (hval : ∀ s ∈ s0 :: rest, validPropName s.1 = true) :
    parsePropsLine h (("properties = ".toList) ++ joinChunks (s0 :: rest))
      = Except.ok { h with
          properties := h.properties ++ (s0 :: rest),
          total_property_elements := ((s0 :: rest).map (fun p => p.2)).sum } := by
  have hint : extractInterior (("properties = ".toList) ++ joinChunks (s0 :: rest))
      = bodyOf s0 ++ rest.flatMap (fun s => ')' :: ',' :: '(' :: bodyOf s) := by
    rw [joinChunks_shape]
    exact extractInterior_shape ("properties = ".toList) _ (by decide)
  unfold parsePropsLine
  rw [hint, split_interior rest (bodyOf s0) (comma_not_in_body s0 (hval s0 (List.mem_cons_self _ _)))
    (fun s hs => comma_not_in_body s (hval s (List.mem_cons_of_mem _ hs)))]
  have h0 : parsePropToken (bodyOf s0 ++ closeTag rest) = Except.ok (s0.1, s0.2) := by
    rw [show (bodyOf s0 ++ closeTag rest : List Char)
      = [] ++ (s0.1 ++ ':' :: (decimalChars s0.2 ++ closeTag rest)) by simp [bodyOf]]
    exact parsePropToken_mk s0.1 s0.2 [] (closeTag rest) (Or.inl rfl)
      (by unfold closeTag; split_ifs <;> simp) (hval s0 (List.mem_cons_self _ _))
  have hmap : ((bodyOf s0 ++ closeTag rest) :: innerToks rest).mapM parsePropToken
      = Except.ok (s0 :: rest) := by
    rw [List.mapM_cons, h0, exbind_ok,
      mapM_innerToks rest (fun q hq => hval q (List.mem_cons_of_mem _ hq)), exbind_ok]
    rfl
  simp only [hmap]

end BrainGraph

namespace BrainGraph

/-!  Running `parse_header` on a saved file. -/

theorem parseHeaderLoop_data (fuel : ℕ) (h : Header) (rest : List (List Char)) :
    parseHeaderLoop (fuel + 1) h (("# Data".toList) :: rest) = Except.ok h := by
  rfl

theorem parseHeaderLoop_headerStep (fuel : ℕ) (h : Header) (rest : List (List Char))
    (er1 : List (Name × ℕ)) (er2 : List (List Char))
    (he : readEntries 5 rest [] = Except.ok (er1, er2)) :
    parseHeaderLoop (fuel + 1) h (("# Header".toList) :: rest)
      = parseHeaderLoop fuel (applyEntries h er1) er2 := by
  rw [show parseHeaderLoop (fuel + 1) h (("# Header".toList) :: rest)
    = match readEntries 5 rest [] with
      | Except.error e => Except.error e
      | Except.ok er => parseHeaderLoop fuel (applyEntries h er.1) er.2 from rfl]
  rw [he]

theorem parseHeaderLoop_propsStep (fuel : ℕ) (h h2 : Header) (line : List Char)
    (rest : List (List Char))
    (hp : parsePropsLine h line = Except.ok h2) :
    parseHeaderLoop (fuel + 1) h (("# Properties".toList) :: line :: rest)
      = parseHeaderLoop fuel h2 rest := by
  rw [show parseHeaderLoop (fuel + 1) h (("# Properties".toList) :: line :: rest)
    = match parsePropsLine h ((line :: rest).headD []) with
      | Except.error e => Except.error e
      | Except.ok h2 => parseHeaderLoop fuel h2 (line :: rest).tail from rfl]
  rw [show (line :: rest).headD [] = line from rfl, hp]
  rfl

/-- Parsing the header region of a saved file recovers node count, edge tally,
the three widths, node 0's property schema and its element total.  For a
graph that emits no `# Properties` section the schema is `[]` and the stated
element total 0 is `emptyHeader`'s modelled resolution of a field the C++
never assigns on that branch (see `emptyHeader`); the round-trip theorem
below therefore restricts itself to the section-emitting branch, where the
total is genuinely assigned by `parsePropsLine`. -/
theorem parse_header_save_binary (g : Graph)
    (hval : ∀ s ∈ schemaOf g, validPropName s.1 = true) :
    parse_header (save_binary g).lines
      = Except.ok ⟨g.no_of_nodes, edgeTally g, 8, 8,
          ((schemaOf g).map (fun p => p.2)).sum, 8, schemaOf g⟩ := by
  by_cases hc : 0 < g.no_of_nodes ∧ 0 < (g.node 0).properties.length
  · have hlines : (save_binary g).lines
        = [("# Header".toList),
           ("node_count = ".toList) ++ decimalChars g.no_of_nodes,
           edgeCountLineOf g,
           ("node_id_bytes = ".toList) ++ decimalChars sizeof_id_type,
           ("property_element_bytes = ".toList) ++ decimalChars sizeof_property_type,
           ("edge_weight_bytes = ".toList) ++ decimalChars sizeof_weight_type,
           ("# Properties".toList), propsLineOf g, ("# Data".toList)] := by
      unfold save_binary
      simp [hc]
    obtain ⟨s0, rest, hsch⟩ : ∃ s0 rest, schemaOf g = s0 :: rest := by
      cases hs : schemaOf g with
      | nil =>
        exfalso
        have : (g.node 0).properties.length = 0 := by
          have := congrArg List.length hs
          simpa [schemaOf] using this
        omega
      | cons a b => exact ⟨a, b, rfl⟩
    have hprops : parsePropsLine ⟨g.no_of_nodes, edgeTally g, 8, 8, 0, 8, []⟩ (propsLineOf g)
        = Except.ok ⟨g.no_of_nodes, edgeTally g, 8, 8,
            ((schemaOf g).map (fun p => p.2)).sum, 8, schemaOf g⟩ := by
      rw [show propsLineOf g = ("properties = ".toList) ++ joinChunks (s0 :: rest) by
        rw [propsLineOf, hsch]]
      rw [parsePropsLine_save _ _ _ (by rw [← hsch]; exact hval)]
      rw [hsch]
      rfl
    unfold parse_header
    rw [hlines]
    rw [show ([("# Header".toList),
           ("node_count = ".toList) ++ decimalChars g.no_of_nodes,
           edgeCountLineOf g,
           ("node_id_bytes = ".toList) ++ decimalChars sizeof_id_type,
           ("property_element_bytes = ".toList) ++ decimalChars sizeof_property_type,
           ("edge_weight_bytes = ".toList) ++ decimalChars sizeof_weight_type,
           ("# Properties".toList), propsLineOf g, ("# Data".toList)] : List (List Char)).length + 1
      = 9 + 1 by simp]
    rw [parseHeaderLoop_headerStep 9 _ _ _ _ (readEntries_save g
      [("# Properties".toList), propsLineOf g, ("# Data".toList)])]
    rw [applyEntries_save g]
    rw [parseHeaderLoop_propsStep 8 _ _ _ _ hprops]
    exact parseHeaderLoop_data 7 _ _
  · have hsch : schemaOf g = [] := by
      unfold schemaOf
      rcases Nat.eq_zero_or_pos g.no_of_nodes with hz | hpos
      · have : g.node 0 = ⟨0, []⟩ := by
          unfold Graph.node
          exact getD_ge_length _ _ _ (by
            have : g.nodes_.length = 0 := hz
            omega)
        rw [this]
        rfl
      · have hlen : (g.node 0).properties.length = 0 := by
          by_contra hne
          exact hc ⟨hpos, Nat.pos_of_ne_zero hne⟩
        rw [List.length_eq_zero.mp hlen]
        rfl
    have hlines : (save_binary g).lines
        = [("# Header".toList),
           ("node_count = ".toList) ++ decimalChars g.no_of_nodes,
           edgeCountLineOf g,
           ("node_id_bytes = ".toList) ++ decimalChars sizeof_id_type,
           ("property_element_bytes = ".toList) ++ decimalChars sizeof_property_type,
           ("edge_weight_bytes = ".toList) ++ decimalChars sizeof_weight_type,
           ("# Data".toList)] := by
      unfold save_binary
      simp [hc]
    unfold parse_header
    rw [hlines]
    rw [show ([("# Header".toList),
           ("node_count = ".toList) ++ decimalChars g.no_of_nodes,
           edgeCountLineOf g,
           ("node_id_bytes = ".toList) ++ decimalChars sizeof_id_type,
           ("property_element_bytes = ".toList) ++ decimalChars sizeof_property_type,
           ("edge_weight_bytes = ".toList) ++ decimalChars sizeof_weight_type,
           ("# Data".toList)] : List (List Char)).length + 1
      = 7 + 1 by simp]
    rw [parseHeaderLoop_headerStep 7 _ _ _ _ (readEntries_save g [("# Data".toList)])]
    rw [applyEntries_save g]
    rw [parseHeaderLoop_data 6 _ _, hsch]
    rfl

end BrainGraph

namespace BrainGraph

/-!  Reconstructing the data region: nodes. -/

theorem wordReal_real (x : ℝ) : wordReal (MWord.real x) = x := rfl

theorem mapSet_absent {α : Type} (m : List (Name × α)) (k : Name) (v : α)
    (h : k ∉ m.map (fun p => p.1)) : mapSet m k v = m ++ [(k, v)] := by
  induction m with
  | nil => rfl
  | cons p rest ih =>
    obtain ⟨k0, v0⟩ := p
    have h1 : k0 ≠ k := by
      intro he
      exact h (by rw [List.map_cons, he]; exact List.mem_cons_self _ _)
    rw [show mapSet ((k0, v0) :: rest) k v
        = if k0 = k then (k0, v) :: rest else (k0, v0) :: mapSet rest k v from rfl,
      if_neg h1, ih (fun hm => h (List.mem_cons_of_mem _ hm)), List.cons_append]

theorem buildProps_exact : ∀ (props acc : List (Name × Property)),
    ((acc ++ props).map (fun p => p.1)).Nodup →
    buildProps (props.map (fun p => (p.1, p.2.dim))) (props.flatMap (fun p => p.2.values)) acc
      = acc ++ props := by
  intro props
  induction props with
  | nil =>
    intro acc _
    simp [buildProps]
  | cons p rest ih =>
    intro acc hnd
    rw [List.map_cons, List.flatMap_cons,
      show buildProps ((p.1, p.2.dim) :: rest.map (fun q => (q.1, q.2.dim)))
          (p.2.values ++ rest.flatMap (fun q => q.2.values)) acc
        = buildProps (rest.map (fun q => (q.1, q.2.dim)))
            ((p.2.values ++ rest.flatMap (fun q => q.2.values)).drop p.2.dim)
            (mapSet acc p.1 ⟨(p.2.values ++ rest.flatMap (fun q => q.2.values)).take p.2.dim⟩)
        from rfl]
    have htake : (p.2.values ++ rest.flatMap (fun q => q.2.values)).take p.2.dim
        = p.2.values := by
      rw [show p.2.dim = p.2.values.length from rfl]
      exact List.take_left _ _
    have hdrop : (p.2.values ++ rest.flatMap (fun q => q.2.values)).drop p.2.dim
        = rest.flatMap (fun q => q.2.values) := by
      rw [show p.2.dim = p.2.values.length from rfl]
      exact List.drop_left _ _
    have habs : p.1 ∉ acc.map (fun q => q.1) := by
      intro hm
      rw [List.map_append] at hnd
      have hd := List.nodup_append.mp hnd
      exact hd.2.2 hm (by rw [List.map_cons]; exact List.mem_cons_self _ _)
    rw [htake, hdrop, show (⟨p.2.values⟩ : Property) = p.2 from rfl,
      mapSet_absent acc p.1 p.2 habs,
      show (acc ++ [(p.1, p.2)] : List (Name × Property)) = acc ++ [p] by rw [show ((p.1, p.2) : Name × Property) = p from rfl]]
    rw [ih (acc ++ [p]) (by
      rw [show acc ++ [p] ++ rest = acc ++ p :: rest by simp]
      exact hnd)]
    simp

theorem readNodes_cons (schema : List (Name × ℕ)) (total k i : ℕ) (ws : List MWord) :
    readNodes schema total (k + 1) i ws
      = (⟨i, buildProps schema (((ws.drop 1).take total).map wordReal) []⟩ ::
          (readNodes schema total k (i + 1) (ws.drop (1 + total))).1,
         (readNodes schema total k (i + 1) (ws.drop (1 + total))).2) := rfl

theorem readNodes_save (g : Graph)
    (hI2 : ∀ i < g.no_of_nodes, (g.node i).properties.map (fun p => (p.1, p.2.dim)) = schemaOf g)
    (hnd : ((schemaOf g).map (fun p => p.1)).Nodup) :
    ∀ (k i : ℕ), i + k ≤ g.no_of_nodes → ∀ (tailws : List MWord),
    readNodes (schemaOf g) (((schemaOf g).map (fun p => p.2)).sum) k i
      ((List.range' i k).flatMap (fun j => MWord.nat (g.node j).id ::
          (g.node j).properties.flatMap (fun p => p.2.values.map MWord.real)) ++ tailws)
      = ((List.range' i k).map (fun j => (⟨j, (g.node j).properties⟩ : Node)), tailws) := by
  intro k
  induction k with
  | zero =>
    intro i _ tailws
    rfl
  | succ k ih =>
    intro i hik tailws
    have hiN : i < g.no_of_nodes := by omega
    have hsch : (g.node i).properties.map (fun p => (p.1, p.2.dim)) = schemaOf g := hI2 i hiN
    have hdims : (g.node i).properties.map (fun p => p.2.dim)
        = (schemaOf g).map (fun q => q.2) := by
      have := congrArg (List.map (fun q : Name × ℕ => q.2)) hsch
      simpa [List.map_map, Function.comp] using this
    have hnames : (g.node i).properties.map (fun p => p.1)
        = (schemaOf g).map (fun q => q.1) := by
      have := congrArg (List.map (fun q : Name × ℕ => q.1)) hsch
      simpa [List.map_map, Function.comp] using this
    have hlen : ((g.node i).properties.flatMap
        (fun p => p.2.values.map MWord.real)).length
        = ((schemaOf g).map (fun p => p.2)).sum := by
      rw [List.length_flatMap]
      have hfn : (List.length ∘ fun p : Name × Property => p.2.values.map MWord.real)
          = fun p : Name × Property => p.2.dim := by
        funext p
        simp [Property.dim]
      rw [show (List.map (List.length ∘ fun p : Name × Property => p.2.values.map MWord.real)
            (g.node i).properties)
          = List.map (fun p : Name × Property => p.2.dim) (g.node i).properties by rw [hfn]]
      rw [hdims]
    rw [List.range'_succ, List.flatMap_cons, List.map_cons]
    rw [readNodes_cons]
    have hws : ((MWord.nat (g.node i).id ::
          (g.node i).properties.flatMap (fun p => p.2.values.map MWord.real)
        ++ (List.range' (i + 1) k).flatMap (fun j => MWord.nat (g.node j).id ::
          (g.node j).properties.flatMap (fun p => p.2.values.map MWord.real))) ++ tailws : List MWord)
        = MWord.nat (g.node i).id ::
          ((g.node i).properties.flatMap (fun p => p.2.values.map MWord.real)
            ++ ((List.range' (i + 1) k).flatMap (fun j => MWord.nat (g.node j).id ::
              (g.node j).properties.flatMap (fun p => p.2.values.map MWord.real)) ++ tailws)) := by
      simp
    rw [hws]
    rw [show (MWord.nat (g.node i).id ::
          ((g.node i).properties.flatMap (fun p => p.2.values.map MWord.real)
            ++ ((List.range' (i + 1) k).flatMap (fun j => MWord.nat (g.node j).id ::
              (g.node j).properties.flatMap (fun p => p.2.values.map MWord.real)) ++ tailws))).drop 1
        = (g.node i).properties.flatMap (fun p => p.2.values.map MWord.real)
            ++ ((List.range' (i + 1) k).flatMap (fun j => MWord.nat (g.node j).id ::
              (g.node j).properties.flatMap (fun p => p.2.values.map MWord.real)) ++ tailws)
        from rfl]
    rw [List.take_left' hlen]
    rw [show (MWord.nat (g.node i).id ::
          ((g.node i).properties.flatMap (fun p => p.2.values.map MWord.real)
            ++ ((List.range' (i + 1) k).flatMap (fun j => MWord.nat (g.node j).id ::
              (g.node j).properties.flatMap (fun p => p.2.values.map MWord.real)) ++ tailws))).drop
            (1 + ((schemaOf g).map (fun p => p.2)).sum)
        = ((g.node i).properties.flatMap (fun p => p.2.values.map MWord.real)
            ++ ((List.range' (i + 1) k).flatMap (fun j => MWord.nat (g.node j).id ::
              (g.node j).properties.flatMap (fun p => p.2.values.map MWord.real)) ++ tailws)).drop
            (((schemaOf g).map (fun p => p.2)).sum) by
      rw [show 1 + ((schemaOf g).map (fun p => p.2)).sum
        = ((schemaOf g).map (fun p => p.2)).sum + 1 by omega]
      rw [List.drop_succ_cons]]
    rw [List.drop_left' hlen]
    have hvals : ((g.node i).properties.flatMap (fun p => p.2.values.map MWord.real)).map wordReal
        = (g.node i).properties.flatMap (fun p => p.2.values) := by
      rw [List.map_flatMap]
      have hfn2 : (fun p : Name × Property => (p.2.values.map MWord.real).map wordReal)
          = fun p : Name × Property => p.2.values := by
        funext p
        have hcomp : (wordReal ∘ MWord.real) = id := by
          funext x
          rfl
        rw [List.map_map, hcomp, List.map_id]
      rw [show ((g.node i).properties.flatMap
            (fun p : Name × Property => (p.2.values.map MWord.real).map wordReal))
          = (g.node i).properties.flatMap (fun p : Name × Property => p.2.values) by rw [hfn2]]
    rw [hvals]
    have hbuild : buildProps (schemaOf g) ((g.node i).properties.flatMap (fun p => p.2.values)) []
        = (g.node i).properties := by
      rw [← hsch]
      have hnodup : ((([] ++ (g.node i).properties : List (Name × Property))).map
          (fun p => p.1)).Nodup := by
        rw [List.nil_append, hnames]
        exact hnd
      have := buildProps_exact (g.node i).properties [] hnodup
      rw [this]
      rfl
    rw [hbuild]
    rw [ih (i + 1) (by omega) tailws]

end BrainGraph

namespace BrainGraph

/-!  Reconstructing the data region: edges. -/

theorem readEdges_cons (k : ℕ) (ws : List MWord) (es : List (List Edge)) :
    readEdges (k + 1) ws es
      = readEdges k (ws.drop 3)
          (pushEdge es (wordNat (ws.headD (MWord.nat 0)))
            ⟨wordNat ((ws.drop 1).headD (MWord.nat 0)),
             wordReal ((ws.drop 2).headD (MWord.real 0))⟩) := rfl

theorem readEdges_records : ∀ (recs : List EdgeInfo) (es : List (List Edge)) (tailws : List MWord),
    readEdges recs.length
      (recs.flatMap (fun r => [MWord.nat r.source, MWord.nat r.target, MWord.real r.weight])
        ++ tailws) es
      = recs.foldl (fun acc r => pushEdge acc r.source ⟨r.target, r.weight⟩) es := by
  intro recs
  induction recs with
  | nil =>
    intro es tailws
    rfl
  | cons r rs ih =>
    intro es tailws
    rw [List.length_cons, List.flatMap_cons, readEdges_cons]
    rw [show ((([MWord.nat r.source, MWord.nat r.target, MWord.real r.weight]
          ++ rs.flatMap (fun q => [MWord.nat q.source, MWord.nat q.target, MWord.real q.weight]))
          ++ tailws).drop 3)
        = rs.flatMap (fun q => [MWord.nat q.source, MWord.nat q.target, MWord.real q.weight])
            ++ tailws from rfl]
    rw [show (wordNat ((([MWord.nat r.source, MWord.nat r.target, MWord.real r.weight]
          ++ rs.flatMap (fun q => [MWord.nat q.source, MWord.nat q.target, MWord.real q.weight]))
          ++ tailws).headD (MWord.nat 0))) = r.source from rfl]
    rw [show (wordNat (((([MWord.nat r.source, MWord.nat r.target, MWord.real r.weight]
          ++ rs.flatMap (fun q => [MWord.nat q.source, MWord.nat q.target, MWord.real q.weight]))
          ++ tailws).drop 1).headD (MWord.nat 0))) = r.target from rfl]
    rw [show (wordReal (((([MWord.nat r.source, MWord.nat r.target, MWord.real r.weight]
          ++ rs.flatMap (fun q => [MWord.nat q.source, MWord.nat q.target, MWord.real q.weight]))
          ++ tailws).drop 2).headD (MWord.real 0))) = r.weight from rfl]
    rw [ih]
    rfl

theorem pushEdge_length (es : List (List Edge)) (src : ℕ) (e : Edge) :
    (pushEdge es src e).length = es.length := by
  unfold pushEdge
  exact List.length_set es src _

theorem foldPush_length : ∀ (recs : List EdgeInfo) (es : List (List Edge)),
    (recs.foldl (fun acc r => pushEdge acc r.source ⟨r.target, r.weight⟩) es).length
      = es.length := by
  intro recs
  induction recs with
  | nil =>
    intro es
    rfl
  | cons r rs ih =>
    intro es
    rw [List.foldl_cons, ih, pushEdge_length]

theorem foldPush_getD : ∀ (recs : List EdgeInfo) (es : List (List Edge)) (j : ℕ),
    j < es.length →
    (recs.foldl (fun acc r => pushEdge acc r.source ⟨r.target, r.weight⟩) es).getD j []
      = es.getD j [] ++ (recs.filter (fun r => r.source == j)).map
          (fun r => (⟨r.target, r.weight⟩ : Edge)) := by
  intro recs
  induction recs with
  | nil =>
    intro es j _
    simp
  | cons r rs ih =>
    intro es j hj
    rw [List.foldl_cons]
    by_cases hsrc : r.source = j
    · have hfil : ((r :: rs).filter (fun q => q.source == j))
          = r :: rs.filter (fun q => q.source == j) := by
        rw [List.filter_cons_of_pos (by simp [hsrc])]
      rw [hfil, ih (pushEdge es r.source ⟨r.target, r.weight⟩) j (by rw [pushEdge_length]; exact hj)]
      rw [show pushEdge es r.source ⟨r.target, r.weight⟩
          = es.set r.source (es.getD r.source [] ++ [⟨r.target, r.weight⟩]) from rfl]
      rw [hsrc, getD_set_self es j _ [] hj]
      simp
    · have hfil : ((r :: rs).filter (fun q => q.source == j))
          = rs.filter (fun q => q.source == j) := by
        rw [List.filter_cons_of_neg (by simp [hsrc])]
      rw [hfil, ih (pushEdge es r.source ⟨r.target, r.weight⟩) j (by rw [pushEdge_length]; exact hj)]
      rw [show pushEdge es r.source ⟨r.target, r.weight⟩
          = es.set r.source (es.getD r.source [] ++ [⟨r.target, r.weight⟩]) from rfl]
      rw [getD_set_ne es j r.source _ [] (fun he => hsrc he.symm)]

theorem filter_flatMap_local {α β : Type _} (l : List α) (F : α → List β) (p : β → Bool) :
    (l.flatMap F).filter p = l.flatMap (fun a => (F a).filter p) := by
  induction l with
  | nil => rfl
  | cons a t ih => simp [List.flatMap_cons, List.filter_append, ih]

theorem flatMap_ite_nil {β : Type _} (j : ℕ) (X : List β) : ∀ (l : List ℕ),
    (∀ i ∈ l, i ≠ j) → l.flatMap (fun i => if i = j then X else []) = [] := by
  intro l
  induction l with
  | nil =>
    intro _
    rfl
  | cons a t ih =>
    intro h
    rw [List.flatMap_cons, if_neg (h a (List.mem_cons_self _ _)), List.nil_append]
    exact ih (fun i hi => h i (List.mem_cons_of_mem _ hi))

theorem flatMap_range_single {β : Type _} (X : List β) :
    ∀ (N j : ℕ), j < N →
    ((List.range N).flatMap (fun i => if i = j then X else [])) = X := by
  intro N
  induction N with
  | zero =>
    intro j hj
    omega
  | succ N ih =>
    intro j hj
    rw [List.range_succ, List.flatMap_append]
    rcases Nat.lt_or_ge j N with hlt | hge
    · rw [ih j hlt]
      rw [show (([N] : List ℕ).flatMap (fun i => if i = j then X else []))
          = (if N = j then X else []) ++ [] from rfl]
      rw [if_neg (by omega), List.append_nil, List.append_nil]
    · have hjN : j = N := by omega
      subst hjN
      rw [flatMap_ite_nil j X (List.range j) (fun i hi => by
        have := List.mem_range.mp hi
        omega)]
      rw [show (([j] : List ℕ).flatMap (fun i => if i = j then X else []))
          = (if j = j then X else []) ++ [] from rfl]
      rw [if_pos rfl, List.append_nil, List.nil_append]

theorem edgeRecords_filter (g : Graph) (j : ℕ) (hj : j < g.no_of_nodes) :
    (edgeRecordsOf g).filter (fun r => r.source == j)
      = (g.edges j).map (fun e => (⟨j, e.node, e.weight⟩ : EdgeInfo)) := by
  unfold edgeRecordsOf
  rw [filter_flatMap_local]
  have hinner : (fun i => (((g.edges i).map (fun e => (⟨i, e.node, e.weight⟩ : EdgeInfo))).filter
        (fun r => r.source == j)))
      = fun i => if i = j then (g.edges j).map (fun e => (⟨j, e.node, e.weight⟩ : EdgeInfo))
          else [] := by
    funext i
    by_cases hij : i = j
    · subst hij
      rw [if_pos rfl]
      apply List.filter_eq_self.mpr
      intro r hr
      obtain ⟨e, _, rfl⟩ := List.mem_map.mp hr
      simp
    · rw [if_neg hij]
      apply List.filter_eq_nil_iff.mpr
      intro r hr
      obtain ⟨e, _, rfl⟩ := List.mem_map.mp hr
      simp [hij]
  rw [hinner, flatMap_range_single _ g.no_of_nodes j hj]

theorem getD_replicate_self {α : Type _} (a : α) : ∀ (n j : ℕ),
    (List.replicate n a).getD j a = a := by
  intro n
  induction n with
  | zero =>
    intro j
    cases j <;> rfl
  | succ n ih =>
    intro j
    cases j with
    | zero => rfl
    | succ j' =>
      rw [List.replicate_succ]
      exact ih j'

end BrainGraph

namespace BrainGraph

theorem load_binary_ok_of_header (f : BinFile) (H : Header)
    (hp : parse_header f.lines = Except.ok H)
    (hid : H.node_id_bytes = 8) (hpe : H.property_element_bytes = 8)
    (hwb : H.edge_weight_bytes ≤ 8) :
    load_binary f = Except.ok (⟨(parse_data f.words H).1, (parse_data f.words H).2⟩ : Graph) := by
  unfold load_binary
  rw [hp]
  change (if H.node_id_bytes ≠ sizeof_id_type then Except.error errIdSize
    else if H.property_element_bytes ≠ sizeof_property_type then Except.error errPropSize
    else if sizeof_weight_type < H.edge_weight_bytes then Except.error errWeightSize
    else Except.ok (⟨(parse_data f.words H).1, (parse_data f.words H).2⟩ : Graph))
    = Except.ok (⟨(parse_data f.words H).1, (parse_data f.words H).2⟩ : Graph)
  rw [if_neg (fun hne => hne hid), if_neg (fun hne => hne hpe)]
  exact if_neg (show ¬(sizeof_weight_type < H.edge_weight_bytes) from Nat.not_lt.mpr hwb)

theorem getD_map_range' {α : Type _} (f : ℕ → α) (d : α) :
    ∀ (n s i : ℕ), i < n → ((List.range' s n).map f).getD i d = f (s + i) := by
  intro n
  induction n with
  | zero =>
    intro s i h
    omega
  | succ n ih =>
    intro s i h
    rw [List.range'_succ, List.map_cons]
    cases i with
    | zero =>
      rw [List.getD_cons_zero, Nat.add_zero]
    | succ i2 =>
      rw [List.getD_cons_succ, ih (s + 1) i2 (by omega)]
      congr 1
      omega

end BrainGraph

namespace BrainGraph

/-- C1: Round-trip (corrected).  For every graph satisfying I1–I3 that has at
least one node and at least one property on node 0 — so that `save_binary`
emits a `# Properties` section, whose parse assigns
`total_property_elements`; without the section the C++ `parse_data` reads
that header field uninitialized (see `emptyHeader`), so no round-trip
behaviour is defined to claim there — and whose property names are
codec-safe (`validPropName`: no ',' / ':' / newline, no leading or trailing
' ' or '('), `load_binary (save_binary g)` succeeds and returns a graph with
the same node count, `node(i).id = i` for every `i`, the same property keys
in the same order with element-wise equal values on every node (full
property-list equality), and for every `i` the same outgoing edge list
(hence the same multiset of (target, weight) edges) as `g`.  Without the
`validPropName` proviso the claim is false: see the counterexample. -/
theorem save_load_round_trip (g : Graph)
    (h1 : InvI1 g) (h2 : InvI2 g) (h3 : InvI3 g)
    (hsec : 0 < g.no_of_nodes ∧ 0 < (g.node 0).properties.length)
    (hval : ∀ s ∈ schemaOf g, validPropName s.1 = true) :
    ∃ g', load_binary (save_binary g) = Except.ok g' ∧
      g'.no_of_nodes = g.no_of_nodes ∧
      (∀ i < g.no_of_nodes, (g'.node i).id = i) ∧
      (∀ i < g.no_of_nodes, (g'.node i).properties = (g.node i).properties) ∧
      (∀ i < g.no_of_nodes, g'.edges i = g.edges i) := by
  have hn : readNodes (schemaOf g) (((schemaOf g).map (fun p => p.2)).sum) g.no_of_nodes 0
      (nodeWordsOf g ++ edgeWordsOf g)
      = ((List.range' 0 g.no_of_nodes).map (fun j => (⟨j, (g.node j).properties⟩ : Node)),
         edgeWordsOf g) := by
    rw [show nodeWordsOf g ++ edgeWordsOf g
        = (List.range' 0 g.no_of_nodes).flatMap (fun j => MWord.nat (g.node j).id ::
            (g.node j).properties.flatMap (fun p => p.2.values.map MWord.real))
          ++ edgeWordsOf g by
      rw [nodeWordsOf, List.range_eq_range']]
    exact readNodes_save g h2.1 h2.2 g.no_of_nodes 0 (by omega) (edgeWordsOf g)
  have he : readEdges (edgeTally g) (edgeWordsOf g) (List.replicate g.no_of_nodes [])
      = (edgeRecordsOf g).foldl (fun acc r => pushEdge acc r.source ⟨r.target, r.weight⟩)
          (List.replicate g.no_of_nodes []) := by
    rw [show edgeTally g = (edgeRecordsOf g).length from rfl]
    rw [show edgeWordsOf g = (edgeRecordsOf g).flatMap
        (fun r => [MWord.nat r.source, MWord.nat r.target, MWord.real r.weight]) ++ [] by
      rw [List.append_nil]
      rfl]
    exact readEdges_records (edgeRecordsOf g) (List.replicate g.no_of_nodes []) []
  have hdata : parse_data (nodeWordsOf g ++ edgeWordsOf g)
      ⟨g.no_of_nodes, edgeTally g, 8, 8, ((schemaOf g).map (fun p => p.2)).sum, 8, schemaOf g⟩
      = ((List.range' 0 g.no_of_nodes).map (fun j => (⟨j, (g.node j).properties⟩ : Node)),
         (edgeRecordsOf g).foldl (fun acc r => pushEdge acc r.source ⟨r.target, r.weight⟩)
           (List.replicate g.no_of_nodes [])) := by
    rw [show parse_data (nodeWordsOf g ++ edgeWordsOf g) ⟨g.no_of_nodes, edgeTally g, 8, 8,
          ((schemaOf g).map (fun p => p.2)).sum, 8, schemaOf g⟩
        = ((readNodes (schemaOf g) (((schemaOf g).map (fun p => p.2)).sum) g.no_of_nodes 0
              (nodeWordsOf g ++ edgeWordsOf g)).1,
           readEdges (edgeTally g)
             (readNodes (schemaOf g) (((schemaOf g).map (fun p => p.2)).sum) g.no_of_nodes 0
               (nodeWordsOf g ++ edgeWordsOf g)).2
             (List.replicate g.no_of_nodes [])) from rfl]
    rw [hn]
    rw [show (((List.range' 0 g.no_of_nodes).map (fun j => (⟨j, (g.node j).properties⟩ : Node)),
        edgeWordsOf g)).1
      = (List.range' 0 g.no_of_nodes).map (fun j => (⟨j, (g.node j).properties⟩ : Node))
      from rfl]
    rw [show (((List.range' 0 g.no_of_nodes).map (fun j => (⟨j, (g.node j).properties⟩ : Node)),
        edgeWordsOf g)).2 = edgeWordsOf g from rfl]
    rw [he]
  have hload : load_binary (save_binary g)
      = Except.ok (⟨(List.range' 0 g.no_of_nodes).map
            (fun j => (⟨j, (g.node j).properties⟩ : Node)),
          (edgeRecordsOf g).foldl (fun acc r => pushEdge acc r.source ⟨r.target, r.weight⟩)
            (List.replicate g.no_of_nodes [])⟩ : Graph) := by
    rw [load_binary_ok_of_header (save_binary g) _ (parse_header_save_binary g hval)
      rfl rfl (by norm_num)]
    rw [show (save_binary g).words = nodeWordsOf g ++ edgeWordsOf g from rfl]
    rw [hdata]
  refine ⟨_, hload, ?_, ?_, ?_, ?_⟩
  · rw [show (⟨(List.range' 0 g.no_of_nodes).map
          (fun j => (⟨j, (g.node j).properties⟩ : Node)),
        (edgeRecordsOf g).foldl (fun acc r => pushEdge acc r.source ⟨r.target, r.weight⟩)
          (List.replicate g.no_of_nodes [])⟩ : Graph).no_of_nodes
      = ((List.range' 0 g.no_of_nodes).map
          (fun j => (⟨j, (g.node j).properties⟩ : Node))).length from rfl]
    rw [List.length_map, List.length_range']
  · intro i hi
    rw [show (⟨(List.range' 0 g.no_of_nodes).map
          (fun j => (⟨j, (g.node j).properties⟩ : Node)),
        (edgeRecordsOf g).foldl (fun acc r => pushEdge acc r.source ⟨r.target, r.weight⟩)
          (List.replicate g.no_of_nodes [])⟩ : Graph).node i
      = ((List.range' 0 g.no_of_nodes).map
          (fun j => (⟨j, (g.node j).properties⟩ : Node))).getD i ⟨0, []⟩ from rfl]
    rw [getD_map_range' _ _ g.no_of_nodes 0 i hi, Nat.zero_add]
  · intro i hi
    rw [show (⟨(List.range' 0 g.no_of_nodes).map
          (fun j => (⟨j, (g.node j).properties⟩ : Node)),
        (edgeRecordsOf g).foldl (fun acc r => pushEdge acc r.source ⟨r.target, r.weight⟩)
          (List.replicate g.no_of_nodes [])⟩ : Graph).node i
      = ((List.range' 0 g.no_of_nodes).map
          (fun j => (⟨j, (g.node j).properties⟩ : Node))).getD i ⟨0, []⟩ from rfl]
    rw [getD_map_range' _ _ g.no_of_nodes 0 i hi, Nat.zero_add]
  · intro i hi
    rw [show (⟨(List.range' 0 g.no_of_nodes).map
          (fun j => (⟨j, (g.node j).properties⟩ : Node)),
        (edgeRecordsOf g).foldl (fun acc r => pushEdge acc r.source ⟨r.target, r.weight⟩)
          (List.replicate g.no_of_nodes [])⟩ : Graph).edges i
      = ((edgeRecordsOf g).foldl (fun acc r => pushEdge acc r.source ⟨r.target, r.weight⟩)
          (List.replicate g.no_of_nodes [])).getD i [] from rfl]
    rw [foldPush_getD (edgeRecordsOf g) (List.replicate g.no_of_nodes []) i
      (by rw [List.length_replicate]; exact hi)]
    rw [getD_replicate_self ([] : List Edge) g.no_of_nodes i, List.nil_append]
    rw [edgeRecords_filter g i hi, List.map_map]
    have hid2 : ((fun r : EdgeInfo => (⟨r.target, r.weight⟩ : Edge))
        ∘ (fun e : Edge => (⟨i, e.node, e.weight⟩ : EdgeInfo))) = id := by
      funext e
      rfl
    rw [hid2, List.map_id]

end BrainGraph

namespace BrainGraph

/-- A graph meeting I1–I3 whose single property name `a:b` contains a colon:
the schema line renders as `(a:b:1)` and re-parsing splits on the wrong
colon. -/
def c1b : Graph := ⟨[⟨0, [("a:b".toList, ⟨[1]⟩)]⟩], [[]]⟩

/-- Counterexample to C1 as stated: `c1b` satisfies I1–I3, yet the round trip
fails — `stoul` throws on the token `b:1` produced by splitting the schema
chunk `(a:b:1)` at its first colon, so `load_binary` returns an error and no
graph at all. -/
theorem save_load_round_trip_cex :
    InvI1 c1b ∧ InvI2 c1b ∧ InvI3 c1b ∧
    load_binary (save_binary c1b) = Except.error ("stoul: invalid argument") := by
  refine ⟨by unfold InvI1; decide, by unfold InvI2; decide, by unfold InvI3; decide, ?_⟩
  rfl

/-- A one-node, one-edge, one-property graph for the round-trip witness. -/
def c1w : Graph := ⟨[⟨0, [("a".toList, ⟨[2]⟩)]⟩], [[⟨0, 3⟩]]⟩

/-- Witness for `save_load_round_trip` at `c1w`. -/
theorem save_load_round_trip_witness :
    ∃ g', load_binary (save_binary c1w) = Except.ok g' ∧
      g'.no_of_nodes = c1w.no_of_nodes ∧
      (∀ i < c1w.no_of_nodes, (g'.node i).id = i) ∧
      (∀ i < c1w.no_of_nodes, (g'.node i).properties = (c1w.node i).properties) ∧
      (∀ i < c1w.no_of_nodes, g'.edges i = c1w.edges i) :=
  save_load_round_trip c1w (by unfold InvI1; decide) (by unfold InvI2; decide)
    (by unfold InvI3; decide) (by decide) (by decide)

end BrainGraph
